import Mathlib

/-!
Verification development for the agent-mem ingestion/retrieval engine
(Go sources under mcp-go/cmd/agent-mem-mcp plus the store, searcher and
settings files of the same package).

Modelling conventions:
* Go strings are modelled as `Str := List Char`; Go byte-length tests are
  approximated by character counts except where noted.
* Go `float64` scores/similarities are modelled as `Rat`; the comparisons
  the code performs (`<`, ordering) are exact on the values we reason about.
* The PostgreSQL `knowledge` table is modelled as a list of rows; SQL
  `INSERT` appends, `DELETE ... WHERE id = $1` filters, `UPDATE ... WHERE
  id = $4` maps over the list.  A `SELECT ... LIMIT 1` without `ORDER BY`
  is modelled as the first match in list order.
* External collaborators (the LLM provider, the embedding provider, MD5,
  cosine distance computed by pgvector) are oracles supplied as explicit
  function parameters; the code under verification never inspects their
  internals, only their results, so this is faithful.
* A pgx transaction is modelled by threading a working copy of the table;
  `Commit` publishes the working copy, any error (or the deferred
  `Rollback`) discards it and keeps the pre-transaction table.
-/

namespace AgentMem

/-- Go string, modelled as a list of characters. -/
abbrev Str := List Char

/-- Convert a Lean string literal to the model's string type. -/
def str (s : String) : Str := s.toList

/-- Similarity / score type (Go float64). -/
abbrev Score := Rat

/-- Embedding vector (Go []float32 / pgvector.Vector). -/
abbrev Vec := List Score

/-- A row of the `knowledge` table (the columns the verified code reads or
writes; see the CREATE TABLE in the store and the INSERT in ingestFile). -/
structure Row where
  id : Str
  projectId : Str
  relativePath : Str
  fileHash : Str
  title : Str
  content : Str
  summary : Str
  filePath : Str
  docType : Str
  knowledgeType : Str
  insightType : Str
  sourceType : Str
  embedding : Vec
  version : Nat
  isLatest : Bool
  supersededBy : Option Str
  supersedeReason : Option Str
  status : Str
  createdAt : Int
  updatedAt : Option Int
  deriving Repr, DecidableEq

/-- The `knowledge` table. -/
abbrev DB := List Row

/-- Result row of Store.FindLatestByRelativePath. -/
structure ExistingRecord where
  id : Str
  fileHash : Str
  version : Nat
  deriving Repr, DecidableEq

/-- The WHERE clause of Store.FindLatestByRelativePath: the row is the
latest one of the `(project_id, relative_path)` pair. -/
def latestMatch (projectId relativePath : Str) (r : Row) : Bool :=
  r.projectId == projectId && r.relativePath == relativePath && r.isLatest

/-- Store.FindLatestByRelativePath: `SELECT id, file_hash, version FROM
knowledge WHERE project_id = $1 AND relative_path = $2 AND is_latest = true
LIMIT 1`; no row gives `none`. -/
def FindLatestByRelativePath (db : DB) (projectId relativePath : Str) :
    Option ExistingRecord :=
  (db.find? (latestMatch projectId relativePath)).map
    fun r => ⟨r.id, r.fileHash, r.version⟩

/-- Store.DeleteBlock: `DELETE FROM knowledge WHERE id = $1` (run on the
transaction when one is given). -/
def DeleteBlock (db : DB) (id : Str) : DB :=
  db.filter fun r => !(r.id == id)

/-- The SET clause of markSuperseded: `is_latest = false, superseded_by =
$1, status = $2, supersede_reason = $3`. -/
def markRow (newId status reason : Str) (r : Row) : Row :=
  { r with isLatest := false, supersededBy := some newId,
           status := status, supersedeReason := some reason }

/-- markSuperseded (ingest.go): `UPDATE knowledge SET is_latest = false,
superseded_by = $1, status = $2, supersede_reason = $3 WHERE id = $4`. -/
def markSuperseded (db : DB) (oldId newId : Str) (status reason : Str) : DB :=
  db.map fun r => if r.id == oldId then markRow newId status reason r else r

/-- Candidate row returned by Store.SearchSimilar. -/
structure Candidate where
  id : Str
  content : Str
  docType : Str
  distance : Score
  similarity : Score
  deriving Repr, DecidableEq

/-- Relation `x` sorts before `y` when its cosine distance is smaller
(the `ORDER BY embedding <=> $1` of SearchSimilar / SearchVector). -/
def distLE (dist : Row → Score) (x y : Row) : Prop := dist x ≤ dist y

instance (dist : Row → Score) : DecidableRel (distLE dist) := fun x y =>
  inferInstanceAs (Decidable (dist x ≤ dist y))

instance (dist : Row → Score) : IsTotal Row (distLE dist) :=
  ⟨fun x y => le_total (dist x) (dist y)⟩

instance (dist : Row → Score) : IsTrans Row (distLE dist) :=
  ⟨fun _ _ _ hxy hyz => le_trans hxy hyz⟩

/-- Store.SearchSimilar: latest rows of the project (and doc type when one
is given), ordered by cosine distance to the probe embedding, limited,
with `similarity = 1 - distance`.  `dist` is the cosine-distance oracle
(`embedding <=> $1`, computed by pgvector). -/
def SearchSimilar (dist : Row → Score) (db : DB) (projectId docType : Str)
    (lim : Nat) : List Candidate :=
  let matching := db.filter fun r =>
    r.isLatest && r.projectId == projectId &&
      (docType == ([] : Str) || r.docType == docType)
  let ordered := matching.insertionSort (distLE dist)
  (ordered.take lim).map fun r =>
    ⟨r.id, r.content, r.docType, dist r, 1 - dist r⟩

/-- Go unicode.IsSpace on the White_Space property (the code points Go
reports as space). -/
def goIsSpace (c : Char) : Bool :=
  (0x09 ≤ c.toNat && c.toNat ≤ 0x0D) || c.toNat == 0x20 || c.toNat == 0x85 ||
  c.toNat == 0xA0 || c.toNat == 0x1680 ||
  (0x2000 ≤ c.toNat && c.toNat ≤ 0x200A) || c.toNat == 0x2028 ||
  c.toNat == 0x2029 || c.toNat == 0x202F || c.toNat == 0x205F ||
  c.toNat == 0x3000

/-- strings.TrimLeftFunc(s, unicode.IsSpace). -/
def trimLeftSpace (s : Str) : Str := s.dropWhile goIsSpace

/-- strings.TrimSpace (leading and trailing white space removed). -/
def trimSpace (s : Str) : Str :=
  ((s.dropWhile goIsSpace).reverse.dropWhile goIsSpace).reverse

/-- Go len(string): number of UTF-8 bytes. -/
def goLen (s : Str) : Nat := s.foldl (fun n c => n + c.utf8Size) 0

/-- Substring containment: does the haystack contain the needle as a
contiguous subsequence? -/
def containsSeq (needle : Str) : Str → Bool
  | [] => needle.isEmpty
  | c :: t => needle.isPrefixOf (c :: t) || containsSeq needle t

/-- Case-insensitive containment, modelling `col ILIKE '%kw%'` for a
keyword without SQL wildcard characters. -/
def ilikeContains (s kw : Str) : Bool :=
  containsSeq (kw.map Char.toLower) (s.map Char.toLower)

/-- normalizeTags (utils.go): trim each tag, drop empties and duplicates,
keep first-occurrence order. -/
def normalizeTags (tags : List Str) : List Str :=
  tags.foldl
    (fun result tag =>
      let value := trimSpace tag
      if value == ([] : Str) || result.contains value then result
      else result ++ [value])
    []

/-- mergeTags (ingest.go). -/
def mergeTags (tags extra : List Str) : List Str := normalizeTags (tags ++ extra)

/-- isValidInsightType (ingest.go). -/
def isValidInsightType (value : Str) : Bool :=
  value == str "solution" || value == str "lesson" ||
  value == str "pattern" || value == str "decision"

/-- Result of LLMClient.DistillDialogue. -/
structure DistillResult where
  summary : Str
  insightType : Str
  problem : Str
  thinking : List Str
  solution : Str
  result : List Str
  reproducible : Bool
  applicableTo : List Str
  tags : List Str
  deriving Repr, DecidableEq

/-- One relation extracted by LLMClient.ExtractRelations. -/
structure Relation where
  keyword : Str
  relationType : Str
  deriving Repr, DecidableEq

/-- Entry appended to related_ids by resolveRelations. -/
structure RelatedRef where
  id : Str
  type : Str
  keyword : Str
  deriving Repr, DecidableEq

/-- The LLM collaborator, as the deterministic record of the answers it
gives during one ingest run (the code only consumes these answers). -/
structure LLMOracle where
  distill : Str → Str → DistillResult
  summarize : Str → Str
  extractRelations : Str → List Relation
  arbitrate : Str → Str → Str

/-- The ingest pipeline's data record (ingest.go KnowledgeIngest, the
fields the verified paths read or write). -/
structure KnowledgeIngest where
  projectId : Str
  projectName : Str
  machineId : Str
  filePath : Str
  relativePath : Str
  rawContentPath : Str
  fileHash : Str
  title : Str
  content : Str
  summary : Str
  knowledgeType : Str
  docType : Str
  insightType : Str
  sourceType : Str
  tags : List Str
  relatedIds : List RelatedRef
  isHighValue : Bool
  reproducible : Option Bool
  applicableTo : List Str
  deriving Repr, DecidableEq

/-- KnowledgeIngest.SummaryOrContent (ingest.go). -/
def SummaryOrContent (data : KnowledgeIngest) : Str :=
  if !(trimSpace data.summary == ([] : Str)) then data.summary else data.content

/-- The dialogue-enrichment block of ingestFile (the body of
`if data.SourceType == SourceTypeDialogue`). -/
def applyDistill (llm : LLMOracle) (data : KnowledgeIngest) : KnowledgeIngest :=
  let distilled := llm.distill data.content data.projectId
  let data := { data with
    summary := distilled.summary
    knowledgeType := str "dialogue_extract" }
  let data :=
    if isValidInsightType distilled.insightType then
      { data with insightType := distilled.insightType }
    else data
  let data :=
    if !(distilled.solution == ([] : Str)) then
      { data with content := distilled.solution }
    else data
  { data with
    isHighValue := true
    tags := mergeTags data.tags distilled.tags
    reproducible := some distilled.reproducible
    applicableTo := distilled.applicableTo
    rawContentPath := data.filePath }

/-- Store.SearchByKeyword: latest rows of the project whose title, content
or summary contains the keyword (ILIKE), limited. -/
def SearchByKeyword (db : DB) (projectId keyword : Str) (lim : Nat) : List Row :=
  (db.filter fun r =>
      r.isLatest && r.projectId == projectId &&
        (ilikeContains r.title keyword || ilikeContains r.content keyword ||
          ilikeContains r.summary keyword)).take lim

/-- resolveRelations (ingest.go): look each extracted keyword up in the
store (reads run on the pool, outside any transaction) and keep the hits. -/
def resolveRelations (llm : LLMOracle) (db : DB) (content projectId : Str) :
    List RelatedRef :=
  (llm.extractRelations content).foldl
    (fun related rel =>
      if rel.keyword == ([] : Str) || rel.relationType == ([] : Str) then related
      else
        match SearchByKeyword db projectId rel.keyword 1 with
        | [] => related
        | m :: _ => related ++ [⟨m.id, rel.relationType, rel.keyword⟩])
    []

/-- ingestFile's result record. -/
structure IngestResult where
  status : Str
  reason : Str
  id : Str
  deriving Repr, DecidableEq

/-- Failure injection for the stores's effectful statements: each flag
makes the corresponding SQL statement (or the commit) report an error,
modelling DB failures at that stage. -/
structure TxExec where
  beginFails : Bool
  insertFails : Bool
  deleteFails : Str → Bool
  markFails : Str → Bool
  searchSimilarFails : Bool
  commitFails : Bool

/-- Environment of one ingest run: the LLM oracle, the embedder outcome,
the pgvector cosine-distance oracle and the configured similarity
threshold (`versioning.semantic_similarity_threshold`). -/
structure IngestEnv where
  llm : LLMOracle
  embedQuery : Str → Except Str Vec
  dist : Vec → Row → Score
  threshold : Score

/-- The row INSERTed by ingestFile (is_latest = true, status = active,
superseded_by = null, created_at = updated_at = now). -/
def newRow (data : KnowledgeIngest) (id : Str) (vec : Vec) (version : Nat)
    (now : Int) : Row :=
  { id := id
    projectId := data.projectId
    relativePath := data.relativePath
    fileHash := data.fileHash
    title := data.title
    content := data.content
    summary := data.summary
    filePath := data.filePath
    docType := data.docType
    knowledgeType := data.knowledgeType
    insightType := data.insightType
    sourceType := data.sourceType
    embedding := vec
    version := version
    isLatest := true
    supersededBy := none
    supersedeReason := none
    status := str "active"
    createdAt := now
    updatedAt := some now }

/-- The body of semanticReplace's candidate loop: candidates below the
threshold are skipped; otherwise the arbitration decision is applied to
the working table — replace deletes the candidate, conflict marks it, any
other decision falls through to the next candidate. -/
def arbStep (env : IngestEnv) (exec : TxExec) (newId : Str)
    (data : KnowledgeIngest) (w : DB) (c : Candidate) : Except Str DB :=
  if c.similarity < env.threshold then .ok w
  else
    let decision := env.llm.arbitrate data.content c.content
    if decision == str "replace" then
      if exec.deleteFails c.id then .error (str "delete failed")
      else .ok (DeleteBlock w c.id)
    else if decision == str "conflict" then
      if exec.markFails c.id then .error (str "update failed")
      else .ok (markSuperseded w c.id newId (str "conflict") (str "conflict"))
    else .ok w

/-- semanticReplace (ingest.go): probe the store for similar latest rows
(read on the pool, so against the pre-transaction table `db0`), and fold
the arbitration step over the candidates on the transaction's working
table `w`. -/
def semanticReplace (env : IngestEnv) (exec : TxExec) (db0 : DB) (newId : Str)
    (data : KnowledgeIngest) (vec : Vec) (w : DB) : Except Str DB :=
  if exec.searchSimilarFails then .error (str "search similar failed")
  else
    let candidates := SearchSimilar (env.dist vec) db0 data.projectId data.docType 3
    candidates.foldlM (arbStep env exec newId data) w

/-- The pre-transaction enrichment stages of ingestFile: dialogue
distillation, the summary fallback for long content (Go measures content
length in bytes), and relation resolution. -/
def enrich (env : IngestEnv) (db : DB) (data0 : KnowledgeIngest) :
    KnowledgeIngest :=
  let data1 :=
    if data0.sourceType == str "dialogue" then applyDistill env.llm data0 else data0
  let data2 :=
    if data1.summary == ([] : Str) && decide (goLen data1.content > 800) then
      { data1 with summary := env.llm.summarize data1.content }
    else data1
  { data2 with
    relatedIds := resolveRelations env.llm db data2.content data2.projectId }

/-- ingestFile from the point where classification has produced a
KnowledgeIngest record (ingest.go lines 141-286): the unchanged-hash skip,
dialogue enrichment, summary fallback, relation resolution, embedding, and
the transaction {insert; same-file delete | semantic arbitration; commit}.
Returns the call's outcome and the table as published after the run: a
committed transaction publishes its working copy, every error path rolls
back to the pre-call table. -/
def ingestFromData (env : IngestEnv) (exec : TxExec) (db : DB)
    (data0 : KnowledgeIngest) (newId : Str) (now : Int) :
    Except Str IngestResult × DB :=
  let existing := FindLatestByRelativePath db data0.projectId data0.relativePath
  if existing.any (fun ex => ex.fileHash == data0.fileHash) then
    (.ok ⟨str "skipped", str "未变化", []⟩, db)
  else
    let data3 := enrich env db data0
    match env.embedQuery (SummaryOrContent data3) with
    | .error e => (.error e, db)
    | .ok vec =>
      let version := match existing with | some ex => ex.version + 1 | none => 1
      if exec.beginFails then (.error (str "begin failed"), db)
      else
        match (if exec.insertFails then .error (str "insert failed")
               else .ok (db ++ [newRow data3 newId vec version now]) :
               Except Str DB) with
        | .error e => (.error e, db)
        | .ok w1 =>
          match (match existing with
                 | some ex =>
                   if exec.deleteFails ex.id then .error (str "delete failed")
                   else .ok (DeleteBlock w1 ex.id)
                 | none => semanticReplace env exec db newId data3 vec w1 :
                 Except Str DB) with
          | .error e => (.error e, db)
          | .ok w2 =>
            if exec.commitFails then (.error (str "commit failed"), db)
            else (.ok ⟨str "ok", [], newId⟩, w2)

/-- Store.FetchObservations: `SELECT ... FROM knowledge WHERE id =
ANY($1)` — the matching rows, in whatever order the database returns them
(modelled as table order; the ordering theorem also covers every
permutation of this list). -/
def FetchObservations (db : DB) (ids : List Str) : List Row :=
  db.filter fun r => ids.contains r.id

/-- The `resultMap` of App.GetObservations: a Go map filled row by row, so
for duplicate ids the last row wins — lookup is the last matching row. -/
def obsResultMap (rows : List Row) (id : Str) : Option Row :=
  rows.reverse.find? fun r => r.id == id

/-- The ordered-assembly loop of App.GetObservations: walk the input ids
in order and keep the mapped row when the id was found. -/
def assembleObservations (ids : List Str) (rows : List Row) : List Row :=
  ids.filterMap (obsResultMap rows)

/-- App.GetObservations (main.go): empty input short-circuits; otherwise
fetch by id set and re-order to the input id order, dropping misses. -/
def GetObservations (db : DB) (ids : List Str) : List Row :=
  if ids.isEmpty then []
  else assembleObservations ids (FetchObservations db ids)

/-- Embedder state (embedder.go): provider/model/dimension/batch size
from configuration, plus the mutex-guarded query cache (an assoc list
keyed by cache key; entry expiry is decided by the time oracle). -/
structure EmbedderState where
  provider : Str
  model : Str
  dimension : Int
  batchSize : Int
  queryCache : List (Str × Vec)

/-- The embedder's external collaborators: the remote batch-embedding
endpoint (per retry attempt: attempt number, model, chunk → outcome) and
the clock (whether the entry behind a cache key has passed its TTL). -/
structure EmbedEnv where
  qwen : Nat → Str → List Str → Except Str (List Vec)
  md5 : Str → List Nat
  expired : Str → Bool

/-- Embedder.cacheKey: Go hashes "provider|model|dimension|text"; the
model keys the cache by that pre-image directly (the hash is collision
free on the runs modelled). -/
def cacheKey (e : EmbedderState) (text : Str) : Str :=
  str "embed:" ++ e.provider ++ str "|" ++ e.model ++ str "|" ++
    (toString e.dimension).toList ++ str "|" ++ text

/-- Go map lookup on the assoc-list cache. -/
def cacheLookup (cache : List (Str × Vec)) (key : Str) : Option Vec :=
  (cache.find? fun p => p.1 == key).map (fun p => p.2)

/-- Embedder.getCachedVector: miss on empty key, missing entry, or an
entry past its TTL (which Go also deletes — dropping entries never breaks
the dimension invariant, so the model keeps the read pure); hits return a
clone of the stored vector. -/
def getCachedVector (env : EmbedEnv) (e : EmbedderState) (key : Str) :
    Option Vec :=
  if key == ([] : Str) then none
  else
    match cacheLookup e.queryCache key with
    | none => none
    | some v => if env.expired key then none else some v

/-- embedCacheMaxEntries (embedder.go). -/
def embedCacheMaxEntries : Nat := 1000

/-- pruneEmbedCache: drop expired entries; if still at capacity, evict
entries down to 90% of capacity (Go iterates the map in arbitrary order;
the model drops from the tail — any choice keeps a subset). -/
def pruneEmbedCache (env : EmbedEnv) (cache : List (Str × Vec)) :
    List (Str × Vec) :=
  let cleaned := cache.filter fun p => !(env.expired p.1)
  if cleaned.length < embedCacheMaxEntries then cleaned
  else cleaned.take (embedCacheMaxEntries - embedCacheMaxEntries / 10)

/-- Go map insert: overwrite the entry with the same key, else append. -/
def cacheInsert (cache : List (Str × Vec)) (key : Str) (v : Vec) :
    List (Str × Vec) :=
  if cache.any (fun p => p.1 == key) then
    cache.map fun p => if p.1 == key then (key, v) else p
  else cache ++ [(key, v)]

/-- Embedder.setCachedVector: ignore empty keys/values, prune at
capacity, store a clone. -/
def setCachedVector (env : EmbedEnv) (e : EmbedderState) (key : Str)
    (v : Vec) : EmbedderState :=
  if key == ([] : Str) || v.isEmpty then e
  else
    let cache :=
      if e.queryCache.length ≥ embedCacheMaxEntries then
        pruneEmbedCache env e.queryCache
      else e.queryCache
    { e with queryCache := cacheInsert cache key v }

/-- Embedder.normalize: with a non-positive configured dimension the
vector passes through; otherwise it is truncated or zero-padded to the
dimension. -/
def normalize (e : EmbedderState) (vector : Vec) : Vec :=
  if e.dimension ≤ 0 then vector
  else if vector.length = e.dimension.toNat then vector
  else if vector.length > e.dimension.toNat then vector.take e.dimension.toNat
  else vector ++ List.replicate (e.dimension.toNat - vector.length) 0

/-- Embedder.mockEmbed: 16 MD5 bytes scaled to [0,1]; with a positive
dimension, out[i] = base[i % 16].  (MD5 always yields 16 bytes, so Go's
panic on an empty base is unreachable; the model reads with a default.) -/
def mockEmbed (env : EmbedEnv) (e : EmbedderState) (text : Str) : Vec :=
  let base : Vec := (env.md5 text).map fun b => (b : Score) / 255
  if e.dimension ≤ 0 then base
  else (List.range e.dimension.toNat).map fun i => base.getD (i % base.length) 0

/-- The 3-attempt retry loop around QwenClient.Embeddings (backoff sleeps
are irrelevant to the value; the last error is kept). -/
def retryEmbeddings (env : EmbedEnv) (model : Str) (chunk : List Str) :
    Except Str (List Vec) :=
  match env.qwen 0 model chunk with
  | .ok v => .ok v
  | .error _ =>
    match env.qwen 1 model chunk with
    | .ok v => .ok v
    | .error _ => env.qwen 2 model chunk

/-- The `for start := 0; start < len(texts); start += batchSize` slicing
of Embedder.embed, as a chunk list.  The loop runs at most `len(texts)`
iterations (the caller clamps the batch size to 1..10, so each iteration
consumes at least one element); the recursion is bounded accordingly. -/
def chunksOfFuel (bs : Nat) : Nat → List Str → List (List Str)
  | 0, _ => []
  | _, [] => []
  | Nat.succ fuel, x :: xs =>
    ((x :: xs).take bs) :: chunksOfFuel bs fuel ((x :: xs).drop bs)

/-- The chunk list of Embedder.embed's batch loop. -/
def chunksOf (bs : Nat) (l : List Str) : List (List Str) :=
  chunksOfFuel bs l.length l

/-- One iteration of the qwen batch loop: call the endpoint with retry,
check the returned count against the chunk size, normalize each vector
and append to the accumulated result. -/
def embedChunkStep (env : EmbedEnv) (e : EmbedderState) (acc : List Vec)
    (chunk : List Str) : Except Str (List Vec) :=
  match retryEmbeddings env e.model chunk with
  | .error err => .error err
  | .ok vectors =>
    if vectors.length ≠ chunk.length then .error (str "向量数量不匹配")
    else .ok (acc ++ vectors.map (normalize e))

/-- Embedder.embed: dispatch on the provider; mock embeds locally, qwen
batches with clamped batch size, retry, a count check and normalization;
fastembed and unknown providers fail loudly. -/
def embed (env : EmbedEnv) (e : EmbedderState) (texts : List Str) :
    Except Str (List Vec) :=
  if texts.isEmpty then .ok []
  else if e.provider == str "mock" then
    .ok (texts.map fun t => normalize e (mockEmbed env e t))
  else if e.provider == str "qwen" then
    if e.model == ([] : Str) then .error (str "缺少向量模型配置")
    else
      let batchSize : Nat :=
        if e.batchSize ≤ 0 then 10
        else if e.batchSize > 10 then 10
        else e.batchSize.toNat
      (chunksOf batchSize texts).foldlM (embedChunkStep env e) ([] : List Vec)
  else if e.provider == str "fastembed" then
    .error (str "fastembed 暂未在 Go 版实现")
  else .error (str "不支持的向量化提供方")

/-- Embedder.EmbedQuery: cache hit returns the cached vector; otherwise
embed one text, fall back to an all-zero vector of the configured
dimension when the provider returns nothing, and cache a non-empty
result.  Returns the result and the updated embedder state. -/
def EmbedQuery (env : EmbedEnv) (e : EmbedderState) (text : Str) :
    Except Str Vec × EmbedderState :=
  let key := cacheKey e text
  match getCachedVector env e key with
  | some cached => (.ok cached, e)
  | none =>
    match embed env e [text] with
    | .error err => (.error err, e)
    | .ok vectors =>
      match vectors with
      | [] => (.ok (List.replicate e.dimension.toNat 0), e)
      | v :: _ =>
        let eNext := if v.length > 0 then setCachedVector env e key v else e
        (.ok v, eNext)

/-- The embedder cache's dimension invariant: every cached vector has the
configured length. -/
def CacheWF (e : EmbedderState) : Prop :=
  ∀ p ∈ e.queryCache, (Prod.snd p).length = e.dimension.toNat

/-- strings.Split on a single-character separator (Go semantics: the
empty string yields [""], adjacent separators yield empty fields). -/
def splitChar (sep : Char) : Str → List Str
  | [] => [[]]
  | c :: rest =>
    let r := splitChar sep rest
    if c = sep then [] :: r
    else
      match r with
      | [] => [[c]]
      | h :: t => (c :: h) :: t

/-- filepath.Base on a slash-normalized path without trailing slash: the
last segment ("." for the empty path). -/
def goBase (path : Str) : Str :=
  if path == ([] : Str) then str "."
  else
    match (splitChar '/' path).getLast? with
    | some last => if last == ([] : Str) then str "/" else last
    | none => str "."

/-- The backwards scan of filepath.Ext over the reversed path: collect
characters until the final dot of the last segment (none before a
separator means no extension). -/
def goExtLoop (acc : Str) : Str → Str
  | [] => []
  | c :: rest =>
    if c = '/' then []
    else if c = '.' then '.' :: acc
    else goExtLoop (c :: acc) rest

/-- filepath.Ext: the suffix beginning at the final dot in the final
element of the path, empty if there is none. -/
def goExt (path : Str) : Str := goExtLoop [] path.reverse

/-- The watcher-related configuration (part of Settings). -/
structure WatcherConfig where
  watchDirs : List Str
  watchRoot : List Str
  extensions : List Str
  ignoreDirs : List Str

/-- shouldWatchFile (ingest.go): basename allowlist first; then the
extension check (only applied when the path has an extension); then the
ignore-dirs check over every path segment; finally the first segment must
be one of the watch directories. -/
def shouldWatchFile (cfg : WatcherConfig) (relativePath : Str) : Bool :=
  let base := goBase relativePath
  if cfg.watchRoot.any (fun name => name == base) then true
  else
    let ext := goExt relativePath
    let extOk :=
      if ext == ([] : Str) then true
      else cfg.extensions.any (fun v => v == ext)
    if !extOk then false
    else
      let parts := splitChar '/' relativePath
      if parts.any (fun part => cfg.ignoreDirs.any (fun ig => ig == part)) then
        false
      else
        match parts with
        | [] => false
        | top :: _ => cfg.watchDirs.any (fun dir => dir == top)

/-- isDialoguePath (ingest.go): the lowercased path matches one of the
dialogue regexes, all of which are literal substrings. -/
def isDialoguePath (relativePath : Str) : Bool :=
  let pathLower := relativePath.map Char.toLower
  containsSeq (str "chat_history/") pathLower ||
  containsSeq (str ".claude/") pathLower ||
  containsSeq (str ".codex/") pathLower ||
  containsSeq (str ".gemini/") pathLower

/-- The path gate of processFile (ingest.go line 370): the file proceeds
to ingestion only when `shouldWatchFile || isDialoguePath`. -/
def processFileAdmits (cfg : WatcherConfig) (relativePath : Str) : Bool :=
  shouldWatchFile cfg relativePath || isDialoguePath relativePath

/-- The watch filter exactly as claim C8 words it: basename allowlist, or
(extension allowed — waived for dialogue paths — AND under a watch
directory AND no ignored segment).  Stated for comparison with the
source's `processFileAdmits`. -/
def claimWatchFilter (cfg : WatcherConfig) (relativePath : Str) : Bool :=
  let parts := splitChar '/' relativePath
  cfg.watchRoot.any (fun name => name == goBase relativePath) ||
  ((isDialoguePath relativePath ||
      cfg.extensions.any (fun v => v == goExt relativePath)) &&
    (match parts with
     | [] => false
     | top :: _ => cfg.watchDirs.any (fun dir => dir == top)) &&
    !(parts.any (fun part => cfg.ignoreDirs.any (fun ig => ig == part))))

/-- The default watcher configuration (defaultSettings in the settings
file). -/
def defaultWatcherConfig : WatcherConfig :=
  { watchDirs := [str "docs", str "doc", str "specs", str "requirements",
      str "progress", str "notes", str "design", str "architecture",
      str "insights", str "lessons", str "postmortem", str "chat_history"]
    watchRoot := [str "README.md", str "README.txt", str "TASKS.md",
      str "CHANGELOG.md", str "TODO.md", str "NOTES.md", str "DESIGN.md",
      str "ARCHITECTURE.md"]
    extensions := [str ".md", str ".txt", str ".rst", str ".adoc",
      str ".org", str ".yaml", str ".yml", str ".json"]
    ignoreDirs := [str ".git", str "node_modules", str "__pycache__",
      str ".venv", str "venv", str "env", str "dist", str "build",
      str "target", str ".idea", str ".vscode", str ".pytest_cache"] }

/-- An intent route (llm.go Route). -/
structure Route where
  docTypes : List Str
  mustLatest : Bool
  timeFilterDays : Option Int
  orderBy : Str

/-- mem.search input (SearchInput, types file). -/
structure SearchInput where
  query : Str
  projectId : Str
  docTypes : List Str
  knowledgeTypes : List Str
  limit : Option Int
  useRouting : Option Bool
  useRerank : Option Bool

/-- One rerank item from the provider: document index and relevance. -/
structure RerankResult where
  index : Int
  relevanceScore : Score
  deriving Repr, DecidableEq

/-- Store.SearchVector's filter/order/limit parameters (SearchParams). -/
structure SearchParams where
  projectId : Str
  docTypes : List Str
  knowledgeTypes : List Str
  limit : Int
  mustLatest : Bool
  orderBy : Str
  since : Option Int

/-- A row of Store.SearchVector's projection (SearchRow). -/
structure SearchRow where
  id : Str
  title : Str
  filePath : Str
  summary : Str
  content : Str
  docType : Str
  knowledgeType : Str
  projectId : Str
  score : Score
  deriving Repr, DecidableEq

/-- One entry of the []map[string]any a search returns.  The Go maps of
the non-reranked paths simply lack the is_reranked key; the model gives
the field with value false there. -/
structure SearchResult where
  id : Str
  title : Str
  filePath : Str
  summary : Str
  docType : Str
  knowledgeType : Str
  score : Score
  projectId : Str
  isReranked : Bool
  deriving Repr, DecidableEq

/-- The searcher's collaborators: intent router, query embedder, cosine
distance, reranker, the clock (seconds) and the rerank.enabled setting. -/
structure SearchEnv where
  route : Str → Route
  embedQuery : Str → Except Str Vec
  dist : Vec → Row → Score
  rerank : Str → List Str → Int → Except Str (List RerankResult)
  now : Int
  rerankEnabled : Bool

/-- uniqueStrings (searcher file): trim, drop empties and duplicates. -/
def uniqueStrings (values : List Str) : List Str :=
  values.foldl
    (fun result value =>
      let value := trimSpace value
      if value == ([] : Str) || result.contains value then result
      else result ++ [value])
    []

/-- truncate (llm.go), used for the rerank documents (Go slices bytes;
the model counts characters). -/
def truncate (value : Str) (limit : Nat) : Str :=
  if value.length ≤ limit then value else value.take limit

/-- `COALESCE(updated_at, created_at)`. -/
def coalesceTime (r : Row) : Int := r.updatedAt.getD r.createdAt

/-- The `ORDER BY COALESCE(updated_at, created_at) DESC` relation. -/
def timeDescLE (x y : Row) : Prop := coalesceTime y ≤ coalesceTime x

instance : DecidableRel timeDescLE := fun x y =>
  inferInstanceAs (Decidable (coalesceTime y ≤ coalesceTime x))

instance : IsTotal Row timeDescLE :=
  ⟨fun x y => le_total (coalesceTime y) (coalesceTime x)⟩

instance : IsTrans Row timeDescLE :=
  ⟨fun _ _ _ hxy hyz => le_trans hyz hxy⟩

/-- The row projection SearchVector scans, with `score = 1 - distance`. -/
def mkSearchRow (dist : Row → Score) (r : Row) : SearchRow :=
  ⟨r.id, r.title, r.filePath, r.summary, r.content, r.docType,
    r.knowledgeType, r.projectId, 1 - dist r⟩

/-- Store.SearchVector: optional predicates on latest flag, project, doc
types, knowledge types and the since bound; cosine ascending or time
descending ordering; LIMIT; distance converted to a similarity score. -/
def SearchVector (dist : Row → Score) (db : DB) (p : SearchParams) :
    List SearchRow :=
  let matching := db.filter fun r =>
    (!p.mustLatest || r.isLatest) &&
    (p.projectId == ([] : Str) || r.projectId == p.projectId) &&
    (p.docTypes.isEmpty || p.docTypes.contains r.docType) &&
    (p.knowledgeTypes.isEmpty || p.knowledgeTypes.contains r.knowledgeType) &&
    (match p.since with
     | none => true
     | some t => decide (t ≤ coalesceTime r))
  let ordered :=
    if p.orderBy == str "time_desc" then matching.insertionSort timeDescLE
    else matching.insertionSort (distLE dist)
  (ordered.take p.limit.toNat).map (mkSearchRow dist)

/-- The result map of the non-reranked paths (score is the cosine-derived
row score, no is_reranked key). -/
def toResult (row : SearchRow) : SearchResult :=
  ⟨row.id, row.title, row.filePath, row.summary, row.docType,
    row.knowledgeType, row.score, row.projectId, false⟩

/-- The sort.Slice comparator of the rerank path: score descending. -/
def scoreDescLE (x y : SearchResult) : Prop := y.score ≤ x.score

instance : DecidableRel scoreDescLE := fun x y =>
  inferInstanceAs (Decidable (y.score ≤ x.score))

instance : IsTotal SearchResult scoreDescLE :=
  ⟨fun x y => le_total y.score x.score⟩

instance : IsTrans SearchResult scoreDescLE :=
  ⟨fun _ _ _ hxy hyz => le_trans hyz hxy⟩

/-- The truncated rerank documents: `TrimSpace(summary) + "\n" +
TrimSpace(content)`, at most 2000 (bytes in Go, characters here). -/
def rerankDocs (rows : List SearchRow) : List Str :=
  rows.map fun row =>
    truncate (trimSpace row.summary ++ '\n' :: trimSpace row.content) 2000

/-- One rerank item turned into a result entry: out-of-range indices are
skipped, otherwise the indexed row with score = relevance_score and
is_reranked = true. -/
def rerankEntry (rows : List SearchRow) (item : RerankResult) :
    Option SearchResult :=
  if item.index < 0 || item.index ≥ (rows.length : Int) then none
  else
    (rows.get? item.index.toNat).map fun row =>
      ⟨row.id, row.title, row.filePath, row.summary, row.docType,
        row.knowledgeType, item.relevanceScore, row.projectId, true⟩

/-- The tail of Searcher.Search once rerank is active and rows exist:
build documents, call the reranker, fall back to the first `limit` rows
on error or an empty answer, otherwise map the items in order, sort by
score descending, trim to `limit`. -/
def rerankStage (env : SearchEnv) (query : Str) (limit : Int)
    (rows : List SearchRow) : List SearchResult :=
  match env.rerank query (rerankDocs rows) limit with
  | .error _ => (rows.map toResult).take limit.toNat
  | .ok items =>
    if items.isEmpty then (rows.map toResult).take limit.toNat
    else
      ((items.filterMap (rerankEntry rows)).insertionSort scoreDescLE).take
        limit.toNat

/-- The trimmed query of a search call. -/
def searchQuery (inp : SearchInput) : Str := trimSpace inp.query

/-- The effective limit: the caller's positive limit or the default 5. -/
def searchLimit (inp : SearchInput) : Int :=
  match inp.limit with
  | some l => if l > 0 then l else 5
  | none => 5

/-- The routing block of Searcher.Search: with routing on (the default),
the route decides must_latest, the time filter and the ordering, and its
doc types are split between knowledge-type and doc-type filters; with
routing off the defaults stay — must_latest = true, no time filter,
relevance ordering, only caller-supplied filters.  Returns (docTypes,
knowledgeTypes, mustLatest, timeFilterDays, orderBy). -/
def routeState (env : SearchEnv) (inp : SearchInput) (query : Str) :
    List Str × List Str × Bool × Option Int × Str :=
  if inp.useRouting.getD true then
    let route := env.route query
    let orderBy := if route.orderBy == ([] : Str) then str "relevance"
      else route.orderBy
    let kd := route.docTypes.foldl
      (fun (acc : List Str × List Str) value =>
        if value == str "insight" || value == str "dialogue_extract" then
          (acc.1 ++ [value], acc.2)
        else (acc.1, acc.2 ++ [value]))
      (inp.knowledgeTypes, inp.docTypes)
    (kd.2, kd.1, route.mustLatest, route.timeFilterDays, orderBy)
  else (inp.docTypes, inp.knowledgeTypes, true, none, str "relevance")

/-- Whether this call reranks: the caller's choice (default the
rerank.enabled setting), forced off for time-ordered results. -/
def searchUseRerank (env : SearchEnv) (inp : SearchInput) : Bool :=
  if (routeState env inp (searchQuery inp)).2.2.2.2 == str "time_desc" then
    false
  else inp.useRerank.getD env.rerankEnabled

/-- The SearchParams Searcher.Search hands to the store: deduplicated
filters, must_latest and ordering from the routing block, the time window
from the route's day count, and limit×5 when reranking. -/
def searchParamsOf (env : SearchEnv) (inp : SearchInput) : SearchParams :=
  let rs := routeState env inp (searchQuery inp)
  { projectId := trimSpace inp.projectId
    docTypes := uniqueStrings rs.1
    knowledgeTypes := uniqueStrings rs.2.1
    limit := if searchUseRerank env inp then searchLimit inp * 5
      else searchLimit inp
    mustLatest := rs.2.2.1
    orderBy := rs.2.2.2.2
    since := rs.2.2.2.1.map fun d => env.now - d * 86400 }

/-- The vector-search rows of a search call. -/
def searchRows (env : SearchEnv) (db : DB) (inp : SearchInput) (vec : Vec) :
    List SearchRow :=
  SearchVector (env.dist vec) db (searchParamsOf env inp)

/-- Searcher.Search (the searcher file): trim and require the query,
resolve limit/routing/rerank flags, embed the query, run the filtered
vector search, and either return the first `limit` rows or hand over to
the rerank stage. -/
def searcherSearch (env : SearchEnv) (db : DB) (inp : SearchInput) :
    Except Str (List SearchResult) :=
  if searchQuery inp == ([] : Str) then .error (str "query 不能为空")
  else
    match env.embedQuery (searchQuery inp) with
    | .error e => .error e
    | .ok vec =>
      let rows := searchRows env db inp vec
      if !(searchUseRerank env inp) || rows.isEmpty then
        .ok ((rows.map toResult).take (searchLimit inp).toNat)
      else .ok (rerankStage env (searchQuery inp) (searchLimit inp) rows)

/-- A trivial LLM oracle for concrete witnesses. -/
def llm0 : LLMOracle :=
  { distill := fun _ _ => ⟨[], [], [], [], [], [], false, [], []⟩
    summarize := fun _ => []
    extractRelations := fun _ => []
    arbitrate := fun _ _ => str "supplement" }

/-- A concrete environment for witnesses. -/
def env0 : IngestEnv :=
  { llm := llm0
    embedQuery := fun _ => .ok [1]
    dist := fun _ _ => 1
    threshold := mkRat 85 100 }

/-- Execution with no injected failure. -/
def noFail : TxExec :=
  ⟨false, false, fun _ => false, fun _ => false, false, false⟩

/-- A concrete classified file for witnesses. -/
def data0 : KnowledgeIngest :=
  { projectId := str "p"
    projectName := str "p"
    machineId := str "m"
    filePath := str "/p/docs/a.md"
    relativePath := str "docs/a.md"
    rawContentPath := []
    fileHash := str "h1"
    title := str "T"
    content := str "body"
    summary := []
    knowledgeType := str "doc"
    docType := str "architecture"
    insightType := []
    sourceType := str "file"
    tags := []
    relatedIds := []
    isHighValue := false
    reproducible := none
    applicableTo := [] }

/-- The latest-flag uniqueness invariant: every `(project_id,
relative_path)` pair has at most one row with `is_latest = true`. -/
def UniqueLatest (db : DB) : Prop :=
  ∀ projectId relativePath : Str,
    (db.filter (latestMatch projectId relativePath)).length ≤ 1

/-- A concrete latest row for witnesses. -/
def row0 : Row :=
  { id := str "r0"
    projectId := str "p"
    relativePath := str "docs/b.md"
    fileHash := str "h0"
    title := str "B"
    content := str "old"
    summary := []
    filePath := str "/p/docs/b.md"
    docType := str "architecture"
    knowledgeType := str "doc"
    insightType := []
    sourceType := str "file"
    embedding := [1]
    version := 1
    isLatest := true
    supersededBy := none
    supersedeReason := none
    status := str "active"
    createdAt := 0
    updatedAt := none }

/-- The candidate SearchSimilar produces for row0 under env0. -/
def cand0 : Candidate :=
  ⟨str "r0", str "old", str "architecture", 1, 1 - 1⟩

/-- A latest row matching data0's pair and hash, for the C3 witness. -/
def rowA : Row :=
  { id := str "rA"
    projectId := str "p"
    relativePath := str "docs/a.md"
    fileHash := str "h1"
    title := str "T"
    content := str "body"
    summary := []
    filePath := str "/p/docs/a.md"
    docType := str "architecture"
    knowledgeType := str "doc"
    insightType := []
    sourceType := str "file"
    embedding := [1]
    version := 1
    isLatest := true
    supersededBy := none
    supersedeReason := none
    status := str "active"
    createdAt := 0
    updatedAt := none }

/-- A search environment for witnesses: trivial route, constant
embedding and distance, a failing reranker, rerank disabled. -/
def envS : SearchEnv :=
  { route := fun _ => ⟨[], true, none, []⟩
    embedQuery := fun _ => .ok [1]
    dist := fun _ _ => 1
    rerank := fun _ _ _ => .error (str "rerank unavailable")
    now := 0
    rerankEnabled := false }

/-- A search input with routing and rerank both disabled. -/
def inpS : SearchInput :=
  ⟨str "q", [], [], [], none, some false, some false⟩

/-- A search input with routing disabled and rerank requested. -/
def inpR : SearchInput :=
  ⟨str "q", [], [], [], none, some false, some true⟩

/-- The single result of searching `[rowA]` with `envS`/`inpS`. -/
def resS : List SearchResult :=
  [toResult (mkSearchRow (envS.dist [1]) rowA)]

/-- The split at the first occurrence of a separator sequence: the text
before it and the text after it, or none when absent (the scan strings.
SplitN performs for each piece). -/
def splitOnce (sep : Str) : Str → Option (Str × Str)
  | [] => if sep.isPrefixOf ([] : Str) then some ([], []) else none
  | c :: cs =>
    if sep.isPrefixOf (c :: cs) then some ([], (c :: cs).drop sep.length)
    else
      match splitOnce sep cs with
      | some (a, b) => some (c :: a, b)
      | none => none

/-- strings.SplitN(s, sep, 3): at most two splits, the third piece keeps
any later separators. -/
def splitN3 (sep s : Str) : List Str :=
  match splitOnce sep s with
  | none => [s]
  | some (a, r) =>
    match splitOnce sep r with
    | none => [a, r]
    | some (b, c) => [a, b, c]

/-- strings.TrimLeft(s, cutset) for a one-character cutset. -/
def trimLeftChar (c : Char) : Str → Str
  | [] => []
  | a :: rest => if a == c then trimLeftChar c rest else a :: rest

/-- buildFrontMatter (utils.go): the --- block with optional
knowledge_type and insight_type lines and a tags list. -/
def buildFrontMatter (knowledgeType insightType : Str)
    (tags : List Str) : Str :=
  str "---\n" ++
  (if knowledgeType == ([] : Str) then []
   else str "knowledge_type: " ++ knowledgeType ++ ['\n']) ++
  (if insightType == ([] : Str) then []
   else str "insight_type: " ++ insightType ++ ['\n']) ++
  (if tags.isEmpty then []
   else str "tags:\n" ++
     (tags.map fun t => str "  - " ++ t ++ ['\n']).flatten) ++
  str "---"

/-- ensureFrontMatter (utils.go): keep content that already starts with a
front-matter fence or needs no metadata; otherwise prepend the block and
normalize the body to trimmed content plus a newline. -/
def ensureFrontMatter (content knowledgeType insightType : Str)
    (tags : List Str) : Str :=
  if (str "---").isPrefixOf (trimLeftSpace content) then content
  else if knowledgeType == ([] : Str) && insightType == ([] : Str) &&
      tags.isEmpty then content
  else buildFrontMatter knowledgeType insightType tags ++
    '\n' :: trimSpace content ++ ['\n']

/-- A YAML value of the subset buildFrontMatter emits: a scalar or a
list of scalars. -/
inductive YamlVal where
  | s (v : Str)
  | list (vs : List Str)
  deriving Repr, DecidableEq

/-- One pass of the yaml.v3 model over the block lines: "key: value"
lines become scalar entries (value trimmed, as the library does with
plain scalars), a line ending in a colon opens a list collected from the
following "  - item" lines.  This models the library exactly on the line
shapes buildFrontMatter emits; stray shapes are dropped. -/
def decodeYamlAux : List Str → List (Str × YamlVal) →
    Option (Str × List Str) → List (Str × YamlVal)
  | [], done, none => done
  | [], done, some (k, items) => done ++ [(k, .list items)]
  | line :: rest, done, pending =>
    if (str "  - ").isPrefixOf line then
      match pending with
      | some (k, items) =>
        decodeYamlAux rest done
          (some (k, items ++ [trimSpace (line.drop 4)]))
      | none => decodeYamlAux rest done none
    else
      let done2 := match pending with
        | some (k, items) => done ++ [(k, .list items)]
        | none => done
      match splitOnce (str ": ") line with
      | some (k, v) =>
        decodeYamlAux rest (done2 ++ [(k, .s (trimSpace v))]) none
      | none =>
        match line.getLast? with
        | some ':' => decodeYamlAux rest done2 (some (line.dropLast, []))
        | _ => decodeYamlAux rest done2 none

/-- The yaml.v3 model on a raw front-matter block: decode its lines. -/
def decodeYaml (raw : Str) : List (Str × YamlVal) :=
  decodeYamlAux (splitChar '\n' raw) [] none

/-- parseFrontMatter (utils.go): split on the --- fences, trim the raw
block, strip leading newlines off the body, decode the block (the
yaml.v3 call is modelled by decodeYaml, which never errors on the
emitted subset). -/
def parseFrontMatter (content : Str) : List (Str × YamlVal) × Str :=
  if !((str "---").isPrefixOf content) then (([] : List (Str × YamlVal)), content)
  else
    match splitN3 (str "---") content with
    | [_, p1, p2] =>
      let raw := trimSpace p1
      let body := trimLeftChar '\n' p2
      if raw == ([] : Str) then (([] : List (Str × YamlVal)), body)
      else (decodeYaml raw, body)
    | _ => (([] : List (Str × YamlVal)), content)

/-- A benign metadata character for the amended round-trip: an ASCII
letter, digit or underscore (so no YAML or fence metacharacter, no
white space). -/
def benignChar (c : Char) : Bool :=
  (65 ≤ c.toNat && c.toNat ≤ 90) || (97 ≤ c.toNat && c.toNat ≤ 122) ||
  (48 ≤ c.toNat && c.toNat ≤ 57) || c.toNat == 95

/-- A benign metadata value: non-empty and all characters benign. -/
def benignVal (v : Str) : Bool := !v.isEmpty && v.all benignChar

/-- Fence safety: every dash is immediately followed by a space and the
string does not end in a dash, so no --- fence can start inside the
string or straddle its right edge. -/
def dashSafe : Str → Bool
  | [] => true
  | [c] => !(c == '-')
  | c :: d :: rest => (!(c == '-') || d == ' ') && dashSafe (d :: rest)

/-- Lines joined with a newline between consecutive lines (the shape of
the trimmed raw block). -/
def nlSep : List Str → Str
  | [] => []
  | [l] => l
  | l :: m :: rest => l ++ '\n' :: nlSep (m :: rest)

/-- The metadata lines buildFrontMatter emits when all three fields are
present, without the newlines. -/
def fmLines (k i : Str) (tags : List Str) : List Str :=
  (str "knowledge_type: " ++ k) :: (str "insight_type: " ++ i) ::
    str "tags:" :: tags.map fun t => str "  - " ++ t


/-- Claim C1: ingest atomicity — whenever any stage of an ingest run
reports an error (insert, same-file delete, arbitration delete or conflict
marking, or the commit itself), the caller receives that error and the
published knowledge table is exactly the pre-call table: no partially
inserted row is observable. -/
theorem C1_ingest_atomicity (env : IngestEnv) (exec : TxExec) (db : DB)
    (data0 : KnowledgeIngest) (newId : Str) (now : Int) :
    ∀ e : Str, (ingestFromData env exec db data0 newId now).1 = .error e →
      (ingestFromData env exec db data0 newId now).2 = db := by
  unfold ingestFromData
  dsimp only
  repeat' split
  all_goals intro e h
  all_goals first | rfl | cases h

/-- Witness for C1: with an injected insert failure on an empty table the
run errors and the table stays empty. -/
theorem C1_ingest_atomicity_witness :
    (ingestFromData env0 { noFail with insertFails := true } [] data0
        (str "n1") 0).2 = ([] : DB) :=
  C1_ingest_atomicity env0 { noFail with insertFails := true } [] data0
    (str "n1") 0 (str "insert failed") (by rfl)

theorem enrich_projectId (env : IngestEnv) (db : DB) (d : KnowledgeIngest) :
    (enrich env db d).projectId = d.projectId := by
  unfold enrich applyDistill
  dsimp only
  simp only [apply_ite (fun k : KnowledgeIngest => k.projectId)]
  simp

theorem enrich_relativePath (env : IngestEnv) (db : DB) (d : KnowledgeIngest) :
    (enrich env db d).relativePath = d.relativePath := by
  unfold enrich applyDistill
  dsimp only
  simp only [apply_ite (fun k : KnowledgeIngest => k.relativePath)]
  simp

theorem enrich_fileHash (env : IngestEnv) (db : DB) (d : KnowledgeIngest) :
    (enrich env db d).fileHash = d.fileHash := by
  unfold enrich applyDistill
  dsimp only
  simp only [apply_ite (fun k : KnowledgeIngest => k.fileHash)]
  simp

theorem length_filter_markSuperseded_le (w : DB) (oldId newId status reason : Str)
    (p : Row → Bool) (hp : ∀ r : Row, p (markRow newId status reason r) = false) :
    ((markSuperseded w oldId newId status reason).filter p).length ≤
      (w.filter p).length := by
  unfold markSuperseded
  induction w with
  | nil => simp
  | cons r t ih =>
    rw [List.map_cons]
    by_cases h : (r.id == oldId) = true
    · rw [if_pos h, List.filter_cons, List.filter_cons, hp r]
      simp only [Bool.false_eq_true, if_false]
      split
      · have := ih
        simp only [List.length_cons]
        omega
      · exact ih
    · rw [if_neg h, List.filter_cons, List.filter_cons]
      split
      · simp only [List.length_cons]
        exact Nat.succ_le_succ ih
      · exact ih

theorem length_filter_DeleteBlock_le (w : DB) (id : Str) (p : Row → Bool) :
    ((DeleteBlock w id).filter p).length ≤ (w.filter p).length :=
  (((List.filter_sublist w)).filter p).length_le

theorem arbStep_filter_le (env : IngestEnv) (exec : TxExec) (newId : Str)
    (data : KnowledgeIngest) (w w' : DB) (c : Candidate) (pid rp : Str)
    (h : arbStep env exec newId data w c = .ok w') :
    ((w'.filter (latestMatch pid rp)).length ≤
      (w.filter (latestMatch pid rp)).length) := by
  unfold arbStep at h
  dsimp only at h
  split at h
  · cases h; exact Nat.le_refl _
  · split at h
    · split at h
      · cases h
      · cases h
        exact length_filter_DeleteBlock_le w c.id _
    · split at h
      · split at h
        · cases h
        · cases h
          refine length_filter_markSuperseded_le w c.id newId _ _ _ ?_
          intro r
          simp [latestMatch, markRow]
      · cases h; exact Nat.le_refl _

theorem arbFold_filter_le (env : IngestEnv) (exec : TxExec) (newId : Str)
    (data : KnowledgeIngest) (pid rp : Str) :
    ∀ (cs : List Candidate) (w w' : DB),
      cs.foldlM (arbStep env exec newId data) w = .ok w' →
      ((w'.filter (latestMatch pid rp)).length ≤
        (w.filter (latestMatch pid rp)).length) := by
  intro cs
  induction cs with
  | nil =>
    intro w w' h
    simp only [List.foldlM_nil] at h
    cases h
    exact Nat.le_refl _
  | cons c t ih =>
    intro w w' h
    rw [List.foldlM_cons] at h
    cases hstep : arbStep env exec newId data w c with
    | error e => rw [hstep] at h; cases h
    | ok w1 =>
      rw [hstep] at h
      simp only [bind, Except.bind] at h
      exact Nat.le_trans (ih w1 w' h)
        (arbStep_filter_le env exec newId data w w1 c pid rp hstep)

theorem semanticReplace_filter_le (env : IngestEnv) (exec : TxExec) (db0 : DB)
    (newId : Str) (data : KnowledgeIngest) (vec : Vec) (w w' : DB) (pid rp : Str)
    (h : semanticReplace env exec db0 newId data vec w = .ok w') :
    ((w'.filter (latestMatch pid rp)).length ≤
      (w.filter (latestMatch pid rp)).length) := by
  unfold semanticReplace at h
  split at h
  · cases h
  · exact arbFold_filter_le env exec newId data pid rp _ w w' h

theorem eq_of_mem_filter_len_le_one {l : List Row} {p : Row → Bool}
    (h : (l.filter p).length ≤ 1) {a b : Row}
    (ha : a ∈ l.filter p) (hb : b ∈ l.filter p) : a = b := by
  rcases hfl : l.filter p with _ | ⟨x, t⟩
  · rw [hfl] at ha; cases ha
  · rw [hfl] at h ha hb
    have ht : t = [] := by
      cases t with
      | nil => rfl
      | cons y u => simp at h
    subst ht
    simp at ha hb
    rw [ha, hb]

/-- Core preservation lemma: an ingest run keeps the latest-flag
uniqueness invariant (shared by the C2 and C3 theorems). -/
theorem ingest_uniqueLatest (env : IngestEnv) (exec : TxExec) (db : DB)
    (d0 : KnowledgeIngest) (newId : Str) (now : Int)
    (hU : UniqueLatest db)
    (hFresh : ∀ r ∈ db, ¬ r.id = newId) :
    UniqueLatest (ingestFromData env exec db d0 newId now).2 := by
  unfold ingestFromData
  dsimp only
  repeat' split
  all_goals try exact hU
  -- the committed-success branch remains
  rename_i hHash xv vec hEmbed hBegin xi w1 heqIns xt w2 heqTx hCommit
  dsimp only
  split at heqIns
  · cases heqIns
  · cases heqIns
    rcases hFind : FindLatestByRelativePath db d0.projectId d0.relativePath with _ | ex
    all_goals rw [hFind] at heqTx
    all_goals dsimp only at heqTx
    · -- Path B: new path, semantic arbitration
      intro pid rp
      refine Nat.le_trans
        (semanticReplace_filter_le env exec db newId (enrich env db d0) vec _ w2
          pid rp heqTx) ?_
      rw [List.filter_append, List.length_append]
      have hnone : ∀ a ∈ db, ¬ latestMatch d0.projectId d0.relativePath a = true := by
        have : db.find? (latestMatch d0.projectId d0.relativePath) = none := by
          unfold FindLatestByRelativePath at hFind
          rcases hf : db.find? (latestMatch d0.projectId d0.relativePath) with _ | r0
          · rfl
          · rw [hf] at hFind; cases hFind
        exact fun a ha => List.find?_eq_none.mp this a ha
      by_cases hLM : latestMatch pid rp
          (newRow (enrich env db d0) newId vec 1 now) = true
      · have hpid : d0.projectId = pid := by
          have := hLM
          simp only [latestMatch, newRow, Bool.and_eq_true, beq_iff_eq] at this
          rw [← this.1.1, enrich_projectId]
        have hrp : d0.relativePath = rp := by
          have := hLM
          simp only [latestMatch, newRow, Bool.and_eq_true, beq_iff_eq] at this
          rw [← this.1.2, enrich_relativePath]
        have hdbnil : db.filter (latestMatch pid rp) = [] := by
          rw [List.filter_eq_nil_iff]
          intro a ha
          rw [← hpid, ← hrp]
          exact hnone a ha
        simp [hdbnil, hLM]
      · have : List.filter (latestMatch pid rp)
            [newRow (enrich env db d0) newId vec 1 now] = [] := by
          simp [hLM]
        rw [this]
        simpa using hU pid rp
    · -- Path A: same file, physical delete of the found latest row
      split at heqTx
      · cases heqTx
      · cases heqTx
        intro pid rp
        -- the row the find? returned
        unfold FindLatestByRelativePath at hFind
        rcases hf : db.find? (latestMatch d0.projectId d0.relativePath) with _ | r0
        · rw [hf] at hFind; cases hFind
        · rw [hf] at hFind
          have hr0mem : r0 ∈ db := List.mem_of_find?_eq_some hf
          have hr0p : latestMatch d0.projectId d0.relativePath r0 = true :=
            List.find?_some hf
          have hExId : ex.id = r0.id := by cases hFind; rfl
          have hr0id : ¬ r0.id = newId := hFresh r0 hr0mem
          have hkeep : (!((newRow (enrich env db d0) newId vec (ex.version + 1)
              now).id == ex.id)) = true := by
            simp only [newRow, hExId, Bool.not_eq_true', beq_eq_false_iff_ne,
              ne_eq]
            exact fun hcon => hr0id hcon.symm
          unfold DeleteBlock
          rw [List.filter_append, List.filter_append, List.length_append]
          have hsingle : List.filter (fun r => !(r.id == ex.id))
              [newRow (enrich env db d0) newId vec (ex.version + 1) now] =
              [newRow (enrich env db d0) newId vec (ex.version + 1) now] := by
            simp only [List.filter, hkeep]
          rw [hsingle]
          by_cases hLM : latestMatch pid rp
              (newRow (enrich env db d0) newId vec (ex.version + 1) now) = true
          · have hpid : d0.projectId = pid := by
              have := hLM
              simp only [latestMatch, newRow, Bool.and_eq_true, beq_iff_eq] at this
              rw [← this.1.1, enrich_projectId]
            have hrp : d0.relativePath = rp := by
              have := hLM
              simp only [latestMatch, newRow, Bool.and_eq_true, beq_iff_eq] at this
              rw [← this.1.2, enrich_relativePath]
            have hdbnil : (db.filter (fun r => !(r.id == ex.id))).filter
                (latestMatch pid rp) = [] := by
              rw [List.filter_eq_nil_iff]
              intro a ha
              obtain ⟨hadb, haq⟩ := List.mem_filter.mp ha
              intro haLM
              have haLM' : latestMatch d0.projectId d0.relativePath a = true := by
                rw [hpid, hrp]; exact haLM
              have : a = r0 :=
                eq_of_mem_filter_len_le_one (hU d0.projectId d0.relativePath)
                  (List.mem_filter.mpr ⟨hadb, haLM'⟩)
                  (List.mem_filter.mpr ⟨hr0mem, hr0p⟩)
              rw [this, hExId] at haq
              simp at haq
            rw [hdbnil]
            simp [hLM]
          · have hnrnil : List.filter (latestMatch pid rp)
                [newRow (enrich env db d0) newId vec (ex.version + 1) now] = [] := by
              simp [hLM]
            rw [hnrnil]
            have hsub : ((db.filter (fun r => !(r.id == ex.id))).filter
                (latestMatch pid rp)).length ≤
                (db.filter (latestMatch pid rp)).length :=
              ((List.filter_sublist db).filter (latestMatch pid rp)).length_le
            simpa using Nat.le_trans hsub (hU pid rp)

/-- Claim C2: latest-flag uniqueness — if every `(project_id,
relative_path)` pair has at most one latest row before an ingest run and
the freshly generated id does not occur in the table, then the invariant
still holds for the table the run publishes, on every path: the skip, all
error/rollback paths, the same-file insert+delete, and the semantic
arbitration path whose delete and conflict marking never add a latest
row. -/
theorem C2_latest_flag_uniqueness (env : IngestEnv) (exec : TxExec) (db : DB)
    (d0 : KnowledgeIngest) (newId : Str) (now : Int)
    (hU : UniqueLatest db)
    (hFresh : ∀ r ∈ db, ¬ r.id = newId) :
    UniqueLatest (ingestFromData env exec db d0 newId now).2 :=
  ingest_uniqueLatest env exec db d0 newId now hU hFresh

/-- Witness for C2: a successful ingest into an empty table preserves the
uniqueness invariant. -/
theorem C2_latest_flag_uniqueness_witness :
    UniqueLatest (ingestFromData env0 noFail [] data0 (str "n1") 0).2 :=
  C2_latest_flag_uniqueness env0 noFail [] data0 (str "n1") 0
    (by intro pid rp; simp [UniqueLatest]) (by intro r hr; cases hr)

theorem searchSimilar_mem (dist : Row → Score) (db0 : DB) (pid dt : Str)
    (lim : Nat) (c : Candidate) (hc : c ∈ SearchSimilar dist db0 pid dt lim) :
    ∃ x ∈ db0, c = ⟨x.id, x.content, x.docType, dist x, 1 - dist x⟩ := by
  unfold SearchSimilar at hc
  dsimp only at hc
  rcases List.mem_map.mp hc with ⟨x, hxmem, hmk⟩
  have hx1 := List.mem_of_mem_take hxmem
  have hx2 := (List.perm_insertionSort _ _).mem_iff.mp hx1
  exact ⟨x, (List.mem_filter.mp hx2).1, hmk.symm⟩

theorem searchSimilar_inj_on_id (dist : Row → Score) (db0 : DB) (pid dt : Str)
    (lim : Nat) (hN : (db0.map Row.id).Nodup) {c1 c2 : Candidate}
    (hc1 : c1 ∈ SearchSimilar dist db0 pid dt lim)
    (hc2 : c2 ∈ SearchSimilar dist db0 pid dt lim)
    (hid : c1.id = c2.id) : c1 = c2 := by
  obtain ⟨x, hx, hcx⟩ := searchSimilar_mem dist db0 pid dt lim c1 hc1
  obtain ⟨y, hy, hcy⟩ := searchSimilar_mem dist db0 pid dt lim c2 hc2
  have hxy : x = y := by
    refine List.inj_on_of_nodup_map hN hx hy ?_
    rw [hcx, hcy] at hid
    exact hid
  rw [hcx, hcy, hxy]

theorem find?_eq_of_unique {l : List Row} {p : Row → Bool} {x : Row}
    (hx : x ∈ l) (hpx : p x = true)
    (huniq : ∀ y ∈ l, p y = true → y = x) :
    l.find? p = some x := by
  induction l with
  | nil => cases hx
  | cons a t ih =>
    by_cases ha : p a = true
    · rw [List.find?_cons_of_pos _ ha]
      rw [huniq a (List.mem_cons_self a t) ha]
    · rw [List.find?_cons_of_neg _ ha]
      have hxt : x ∈ t := by
        rcases List.mem_cons.mp hx with h1 | h2
        · exact absurd (h1 ▸ hpx) ha
        · exact h2
      exact ih hxt fun y hy hpy => huniq y (List.mem_cons_of_mem a hy) hpy

/-- The unchanged-hash early return of ingestFile: a latest record with
the same hash short-circuits the run before any write. -/
theorem ingest_skip_of_hash (env : IngestEnv) (exec : TxExec) (db : DB)
    (d0 : KnowledgeIngest) (newId : Str) (now : Int) (ex : ExistingRecord)
    (hFind : FindLatestByRelativePath db d0.projectId d0.relativePath = some ex)
    (hHash : ex.fileHash = d0.fileHash) :
    ingestFromData env exec db d0 newId now =
      (.ok ⟨str "skipped", str "未变化", []⟩, db) := by
  unfold ingestFromData
  dsimp only
  rw [hFind]
  have hcond : Option.any (fun e => e.fileHash == d0.fileHash) (some ex) = true := by
    simp [hHash]
  rw [hcond]
  simp

theorem arbStep_nr_inv (env : IngestEnv) (exec : TxExec) (newId : Str)
    (data : KnowledgeIngest) (w w' : DB) (c : Candidate) (nr : Row)
    (pid rp : Str) (hcid : ¬ c.id = nr.id)
    (h : arbStep env exec newId data w c = .ok w')
    (hmem : nr ∈ w) (huniq : ∀ a ∈ w, latestMatch pid rp a = true → a = nr) :
    nr ∈ w' ∧ ∀ a ∈ w', latestMatch pid rp a = true → a = nr := by
  unfold arbStep at h
  dsimp only at h
  split at h
  · cases h; exact ⟨hmem, huniq⟩
  · split at h
    · split at h
      · cases h
      · cases h
        refine ⟨List.mem_filter.mpr ⟨hmem, ?_⟩, ?_⟩
        · simp only [Bool.not_eq_true', beq_eq_false_iff_ne, ne_eq]
          exact fun hcon => hcid hcon.symm
        · intro a ha hla
          exact huniq a (List.mem_filter.mp ha).1 hla
    · split at h
      · split at h
        · cases h
        · cases h
          constructor
          · unfold markSuperseded
            have hfix : (if nr.id == c.id then
                markRow newId (str "conflict") (str "conflict") nr else nr) = nr := by
              rw [if_neg]
              simp only [beq_iff_eq]
              exact fun hcon => hcid hcon.symm
            have := List.mem_map_of_mem (fun r => if r.id == c.id then
              markRow newId (str "conflict") (str "conflict") r else r) hmem
            dsimp only at this
            rwa [hfix] at this
          · intro a ha hla
            unfold markSuperseded at ha
            rcases List.mem_map.mp ha with ⟨b, hb, hba⟩
            by_cases hbid : (b.id == c.id) = true
            · rw [if_pos hbid] at hba
              exfalso
              rw [← hba] at hla
              simp [latestMatch, markRow] at hla
            · rw [if_neg hbid] at hba
              rw [← hba]
              exact huniq b hb (hba ▸ hla)
      · cases h; exact ⟨hmem, huniq⟩

theorem arbFold_nr_inv (env : IngestEnv) (exec : TxExec) (newId : Str)
    (data : KnowledgeIngest) (nr : Row) (pid rp : Str) :
    ∀ (cs : List Candidate) (w w' : DB),
      (∀ d ∈ cs, ¬ d.id = nr.id) →
      cs.foldlM (arbStep env exec newId data) w = .ok w' →
      nr ∈ w → (∀ a ∈ w, latestMatch pid rp a = true → a = nr) →
      nr ∈ w' ∧ ∀ a ∈ w', latestMatch pid rp a = true → a = nr := by
  intro cs
  induction cs with
  | nil =>
    intro w w' _ h hmem huniq
    simp only [List.foldlM_nil] at h
    cases h
    exact ⟨hmem, huniq⟩
  | cons c t ih =>
    intro w w' hall h hmem huniq
    rw [List.foldlM_cons] at h
    cases hstep : arbStep env exec newId data w c with
    | error e => rw [hstep] at h; cases h
    | ok w1 =>
      rw [hstep] at h
      simp only [bind, Except.bind] at h
      obtain ⟨hmem1, huniq1⟩ := arbStep_nr_inv env exec newId data w w1 c nr
        pid rp (hall c (List.mem_cons_self c t)) hstep hmem huniq
      exact ih w1 w' (fun d hd => hall d (List.mem_cons_of_mem c hd)) h hmem1 huniq1

/-- After a successful (status "ok") ingest run the published table's
latest record for the file's `(project_id, relative_path)` pair is exactly
the freshly inserted row: same new id and the ingested file hash. -/
theorem ingest_ok_findLatest (env : IngestEnv) (exec : TxExec) (db : DB)
    (d0 : KnowledgeIngest) (newId : Str) (now : Int)
    (hU : UniqueLatest db) (hFresh : ∀ r ∈ db, ¬ r.id = newId) :
    ∀ res w, ingestFromData env exec db d0 newId now = (.ok res, w) →
      res.status = str "ok" →
      ∃ v, FindLatestByRelativePath w d0.projectId d0.relativePath =
        some ⟨newId, d0.fileHash, v⟩ := by
  unfold ingestFromData
  dsimp only
  repeat' split
  all_goals intro res w h hst
  all_goals cases h
  · exact absurd hst (by decide)
  rename_i hHash xv vec hEmbed hBegin xi w1 heqIns xt w2 heqTx hCommit
  split at heqIns
  · cases heqIns
  · cases heqIns
    have hPid := enrich_projectId env db d0
    have hRp := enrich_relativePath env db d0
    have hFH := enrich_fileHash env db d0
    rcases hFind : FindLatestByRelativePath db d0.projectId d0.relativePath with _ | ex
    all_goals rw [hFind] at heqTx
    all_goals dsimp only at heqTx
    · -- Path B: arbitration on a fresh path
      have hnone : ∀ a ∈ db, ¬ latestMatch d0.projectId d0.relativePath a = true := by
        have hfnone : db.find? (latestMatch d0.projectId d0.relativePath) = none := by
          unfold FindLatestByRelativePath at hFind
          rcases hf : db.find? (latestMatch d0.projectId d0.relativePath) with _ | r0
          · rfl
          · rw [hf] at hFind; cases hFind
        exact fun a ha => List.find?_eq_none.mp hfnone a ha
      unfold semanticReplace at heqTx
      split at heqTx
      · cases heqTx
      · dsimp only at heqTx
        have hnr : (newRow (enrich env db d0) newId vec 1 now).id = newId := rfl
        have hids : ∀ d ∈ SearchSimilar (env.dist vec) db (enrich env db d0).projectId
            (enrich env db d0).docType 3,
            ¬ d.id = (newRow (enrich env db d0) newId vec 1 now).id := by
          intro d hd
          obtain ⟨x, hxdb, hdx⟩ := searchSimilar_mem _ _ _ _ _ d hd
          rw [hdx, hnr]
          exact hFresh x hxdb
        have hlm : latestMatch d0.projectId d0.relativePath
            (newRow (enrich env db d0) newId vec 1 now) = true := by
          simp [latestMatch, newRow, hPid, hRp]
        obtain ⟨hmem2, huniq2⟩ := arbFold_nr_inv env exec newId (enrich env db d0)
          (newRow (enrich env db d0) newId vec 1 now) d0.projectId d0.relativePath
          _ _ w2 hids heqTx
          (List.mem_append_right db (List.mem_singleton.mpr rfl))
          (by
            intro a ha hla
            rcases List.mem_append.mp ha with h1 | h2
            · exact absurd hla (hnone a h1)
            · exact List.mem_singleton.mp h2)
        refine ⟨1, ?_⟩
        unfold FindLatestByRelativePath
        rw [find?_eq_of_unique hmem2 hlm huniq2]
        simp [newRow, hFH]
    · -- Path A: same file, delete the previous latest row
      split at heqTx
      · cases heqTx
      · cases heqTx
        unfold FindLatestByRelativePath at hFind
        rcases hf : db.find? (latestMatch d0.projectId d0.relativePath) with _ | r0
        · rw [hf] at hFind; cases hFind
        · rw [hf] at hFind
          have hr0mem : r0 ∈ db := List.mem_of_find?_eq_some hf
          have hr0p : latestMatch d0.projectId d0.relativePath r0 = true :=
            List.find?_some hf
          have hExId : ex.id = r0.id := by cases hFind; rfl
          have hr0id : ¬ r0.id = newId := hFresh r0 hr0mem
          have hkeep : (!((newRow (enrich env db d0) newId vec (ex.version + 1)
              now).id == ex.id)) = true := by
            simp only [newRow, hExId, Bool.not_eq_true', beq_eq_false_iff_ne, ne_eq]
            exact fun hcon => hr0id hcon.symm
          have hlm : latestMatch d0.projectId d0.relativePath
              (newRow (enrich env db d0) newId vec (ex.version + 1) now) = true := by
            simp [latestMatch, newRow, hPid, hRp]
          refine ⟨ex.version + 1, ?_⟩
          unfold FindLatestByRelativePath
          rw [find?_eq_of_unique (x := newRow (enrich env db d0) newId vec
            (ex.version + 1) now) ?_ hlm ?_]
          · simp [newRow, hFH]
          · unfold DeleteBlock
            refine List.mem_filter.mpr ⟨?_, hkeep⟩
            exact List.mem_append_right db (List.mem_singleton.mpr rfl)
          · intro y hy hly
            unfold DeleteBlock at hy
            obtain ⟨hyap, hyq⟩ := List.mem_filter.mp hy
            rcases List.mem_append.mp hyap with h1 | h2
            · exfalso
              have : y = r0 :=
                eq_of_mem_filter_len_le_one (hU d0.projectId d0.relativePath)
                  (List.mem_filter.mpr ⟨h1, hly⟩)
                  (List.mem_filter.mpr ⟨hr0mem, hr0p⟩)
              rw [this, hExId] at hyq
              simp at hyq
            · exact List.mem_singleton.mp h2

theorem filter_id_DeleteBlock (w : DB) (did cid : Str) (hne : ¬ did = cid) :
    (DeleteBlock w did).filter (fun r => r.id == cid) =
      w.filter (fun r => r.id == cid) := by
  unfold DeleteBlock
  induction w with
  | nil => rfl
  | cons r t ih =>
    by_cases hr : (r.id == cid) = true
    · have hkeep : (!(r.id == did)) = true := by
        simp only [beq_iff_eq] at hr
        simp only [Bool.not_eq_true', beq_eq_false_iff_ne, ne_eq, hr]
        exact fun hcon => hne hcon.symm
      simp only [List.filter_cons, hkeep, if_pos rfl, hr, if_true, ih]
    · by_cases hd : (!(r.id == did)) = true
      · simp only [List.filter_cons, hd, if_pos rfl, hr]
        simpa [hr] using ih
      · simp only [List.filter_cons, hd]
        simpa [hr] using ih

theorem filter_id_markSuperseded (w : DB) (did nid st rs cid : Str)
    (hne : ¬ did = cid) :
    (markSuperseded w did nid st rs).filter (fun r => r.id == cid) =
      w.filter (fun r => r.id == cid) := by
  unfold markSuperseded
  induction w with
  | nil => rfl
  | cons r t ih =>
    rw [List.map_cons]
    by_cases hd : (r.id == did) = true
    · have hr : (r.id == cid) = false := by
        simp only [beq_iff_eq] at hd
        simp only [beq_eq_false_iff_ne, ne_eq, hd]
        exact hne
      have hr2 : ((markRow nid st rs r).id == cid) = false := hr
      simp only [if_pos hd, List.filter_cons, hr2, hr]
      simpa using ih
    · simp only [if_neg hd, List.filter_cons]
      by_cases hr : (r.id == cid) = true
      · simp only [hr, if_true, ih]
      · simpa [hr] using ih

theorem arbStep_preserves_id (env : IngestEnv) (exec : TxExec) (newId : Str)
    (data : KnowledgeIngest) (w w' : DB) (c : Candidate) (cid : Str)
    (hcond : ¬ c.id = cid ∨ c.similarity < env.threshold ∨
      (¬ env.llm.arbitrate data.content c.content = str "replace" ∧
       ¬ env.llm.arbitrate data.content c.content = str "conflict"))
    (h : arbStep env exec newId data w c = .ok w') :
    w'.filter (fun r => r.id == cid) = w.filter (fun r => r.id == cid) := by
  unfold arbStep at h
  dsimp only at h
  split at h
  · cases h; rfl
  · rename_i hsim
    split at h
    · rename_i hrep
      split at h
      · cases h
      · cases h
        have hne : ¬ c.id = cid := by
          rcases hcond with h1 | h2 | ⟨h3, _⟩
          · exact h1
          · exact absurd h2 hsim
          · exact absurd (by simpa using hrep) h3
        exact filter_id_DeleteBlock w c.id cid hne
    · split at h
      · rename_i hconf
        split at h
        · cases h
        · cases h
          have hne : ¬ c.id = cid := by
            rcases hcond with h1 | h2 | ⟨_, h4⟩
            · exact h1
            · exact absurd h2 hsim
            · exact absurd (by simpa using hconf) h4
          exact filter_id_markSuperseded w c.id newId (str "conflict")
            (str "conflict") cid hne
      · cases h; rfl

theorem arbFold_preserves_id (env : IngestEnv) (exec : TxExec) (newId : Str)
    (data : KnowledgeIngest) (cid : Str) :
    ∀ (cs : List Candidate) (w w' : DB),
      (∀ d ∈ cs, ¬ d.id = cid ∨ d.similarity < env.threshold ∨
        (¬ env.llm.arbitrate data.content d.content = str "replace" ∧
         ¬ env.llm.arbitrate data.content d.content = str "conflict")) →
      cs.foldlM (arbStep env exec newId data) w = .ok w' →
      w'.filter (fun r => r.id == cid) = w.filter (fun r => r.id == cid) := by
  intro cs
  induction cs with
  | nil =>
    intro w w' _ h
    simp only [List.foldlM_nil] at h
    cases h
    rfl
  | cons c t ih =>
    intro w w' hall h
    rw [List.foldlM_cons] at h
    cases hstep : arbStep env exec newId data w c with
    | error e => rw [hstep] at h; cases h
    | ok w1 =>
      rw [hstep] at h
      simp only [bind, Except.bind] at h
      rw [ih w1 w' (fun d hd => hall d (List.mem_cons_of_mem c hd)) h]
      exact arbStep_preserves_id env exec newId data w w1 c cid
        (hall c (List.mem_cons_self c t)) hstep

/-- Claim C4: arbitration monotonicity — during the semantic arbitration
of a new-path ingest, a candidate whose similarity is below the configured
threshold, or whose arbitration decision is anything other than replace or
conflict (in particular supplement or unrelated), is neither deleted nor
updated: the working table's rows bearing the candidate's id come out of
semanticReplace exactly as they went in (table ids assumed unique). -/
theorem C4_arbitration_monotonicity (env : IngestEnv) (exec : TxExec)
    (db0 : DB) (newId : Str) (data : KnowledgeIngest) (vec : Vec)
    (w w' : DB) (c : Candidate)
    (hN : (db0.map Row.id).Nodup)
    (hc : c ∈ SearchSimilar (env.dist vec) db0 data.projectId data.docType 3)
    (hskip : c.similarity < env.threshold ∨
      (¬ env.llm.arbitrate data.content c.content = str "replace" ∧
       ¬ env.llm.arbitrate data.content c.content = str "conflict"))
    (hrun : semanticReplace env exec db0 newId data vec w = .ok w') :
    w'.filter (fun r => r.id == c.id) = w.filter (fun r => r.id == c.id) := by
  unfold semanticReplace at hrun
  split at hrun
  · cases hrun
  · dsimp only at hrun
    refine arbFold_preserves_id env exec newId data c.id _ w w' ?_ hrun
    intro d hd
    by_cases hid : d.id = c.id
    · have : d = c :=
        searchSimilar_inj_on_id (env.dist vec) db0 data.projectId data.docType 3
          hN hd hc hid
      rw [this]
      exact Or.inr hskip
    · exact Or.inl hid

/-- Claim C3: unchanged-hash skip — (1) whenever the store's latest record
for the file's `(project_id, relative_path)` pair carries the same file
hash as the classified content, ingest returns status "skipped" with
reason "未变化" and the table is byte-for-byte unchanged; (2) consequently,
after a successful ingest, re-ingesting the identically classified file
(same hash) is skipped, leaves the published table unchanged, and that
table holds exactly one latest row for the pair. -/
theorem C3_unchanged_hash_skip (env : IngestEnv) (exec : TxExec) (db : DB)
    (d0 : KnowledgeIngest) (newId : Str) (now : Int) :
    (∀ ex, FindLatestByRelativePath db d0.projectId d0.relativePath = some ex →
        ex.fileHash = d0.fileHash →
        ingestFromData env exec db d0 newId now =
          (.ok ⟨str "skipped", str "未变化", []⟩, db))
    ∧ (UniqueLatest db → (∀ r ∈ db, ¬ r.id = newId) →
        ∀ res w, ingestFromData env exec db d0 newId now = (.ok res, w) →
          res.status = str "ok" →
          (∀ (envB : IngestEnv) (execB : TxExec) (newIdB : Str) (nowB : Int),
              ingestFromData envB execB w d0 newIdB nowB =
                (.ok ⟨str "skipped", str "未变化", []⟩, w))
          ∧ (w.filter (latestMatch d0.projectId d0.relativePath)).length = 1) := by
  constructor
  · intro ex hF hH
    exact ingest_skip_of_hash env exec db d0 newId now ex hF hH
  · intro hU hFresh res w hrun hst
    obtain ⟨v, hFL⟩ :=
      ingest_ok_findLatest env exec db d0 newId now hU hFresh res w hrun hst
    constructor
    · intro envB execB newIdB nowB
      exact ingest_skip_of_hash envB execB w d0 newIdB nowB
        ⟨newId, d0.fileHash, v⟩ hFL rfl
    · have hle : (w.filter (latestMatch d0.projectId d0.relativePath)).length ≤ 1 := by
        have hUL := ingest_uniqueLatest env exec db d0 newId now hU hFresh
        rw [hrun] at hUL
        exact hUL d0.projectId d0.relativePath
      have hge : 0 < (w.filter (latestMatch d0.projectId d0.relativePath)).length := by
        unfold FindLatestByRelativePath at hFL
        rcases hf : w.find? (latestMatch d0.projectId d0.relativePath) with _ | r
        · rw [hf] at hFL; cases hFL
        · exact List.length_pos_of_mem (List.mem_filter.mpr
            ⟨List.mem_of_find?_eq_some hf, List.find?_some hf⟩)
      omega

/-- Witness for C3: the store already holds rowA with data0's hash, so the
ingest run is skipped with reason 未变化 and the table is unchanged. -/
theorem C3_unchanged_hash_skip_witness :
    ingestFromData env0 noFail [rowA] data0 (str "n1") 0 =
      (.ok ⟨str "skipped", str "未变化", []⟩, [rowA]) :=
  (C3_unchanged_hash_skip env0 noFail [rowA] data0 (str "n1") 0).1
    ⟨str "rA", str "h1", 1⟩ (by rfl) (by rfl)

/-- cand0's similarity (1 - 1 = 0) is below env0's threshold (85/100). -/
theorem cand0_below_threshold : cand0.similarity < env0.threshold := by
  have h0 : cand0.similarity = 0 := sub_self 1
  rw [h0]
  decide

/-- Witness for C4: with one candidate whose similarity (0) is below the
threshold (0.85), semanticReplace leaves the candidate's row untouched. -/
theorem C4_arbitration_monotonicity_witness :
    ([row0] : DB).filter (fun r => r.id == cand0.id) =
      ([row0] : DB).filter (fun r => r.id == cand0.id) :=
  C4_arbitration_monotonicity env0 noFail [row0] (str "n1") data0 [1]
    [row0] [row0] cand0 (by simp)
    (by rw [show SearchSimilar (env0.dist [1]) [row0] data0.projectId
          data0.docType 3 = [cand0] from rfl]; exact List.mem_singleton.mpr rfl)
    (Or.inl cand0_below_threshold)
    (by
      unfold semanticReplace
      rw [if_neg (by simp [noFail])]
      dsimp only
      rw [show SearchSimilar (env0.dist [1]) [row0] data0.projectId
          data0.docType 3 = [cand0] from rfl]
      rw [List.foldlM_cons, show arbStep env0 noFail (str "n1") data0 [row0]
          cand0 = .ok [row0] from by
        unfold arbStep
        rw [if_pos cand0_below_threshold]]
      simp [bind, Except.bind]
      rfl)

theorem obsResultMap_id {rows : List Row} {i : Str} {r : Row}
    (h : obsResultMap rows i = some r) : r.id = i := by
  unfold obsResultMap at h
  have := List.find?_some h
  simpa using this

theorem obsResultMap_none_iff {rows : List Row} {i : Str} :
    obsResultMap rows i = none ↔ ∀ r ∈ rows, ¬ r.id = i := by
  unfold obsResultMap
  rw [List.find?_eq_none]
  constructor
  · intro h r hr
    have := h r (List.mem_reverse.mpr hr)
    simpa using this
  · intro h r hr
    have := h r (List.mem_reverse.mp hr)
    simpa using this

theorem assemble_map_id (rows : List Row) (ids : List Str) :
    (assembleObservations ids rows).map Row.id =
      ids.filter (fun i => rows.any (fun r => r.id == i)) := by
  induction ids with
  | nil => rfl
  | cons i t ih =>
    unfold assembleObservations at *
    rw [List.filterMap_cons, List.filter_cons]
    cases hf : obsResultMap rows i with
    | none =>
      have hany : (rows.any fun r => r.id == i) = false := by
        rw [Bool.eq_false_iff]
        intro hcon
        rcases List.any_eq_true.mp hcon with ⟨r, hr, hri⟩
        exact absurd (by simpa using hri)
          ((obsResultMap_none_iff.mp hf) r hr)
      simp only [hany, Bool.false_eq_true, if_false]
      exact ih
    | some r =>
      have hany : (rows.any fun r => r.id == i) = true := by
        refine List.any_eq_true.mpr ?_
        refine ⟨r, ?_, by simp [obsResultMap_id hf]⟩
        have := List.mem_of_find?_eq_some hf
        exact List.mem_reverse.mp this
      simp only [hany, if_true, List.map_cons, obsResultMap_id hf]
      rw [ih]

theorem obsResultMap_perm {rows rows' : List Row}
    (hN : (rows.map Row.id).Nodup) (hp : rows.Perm rows') (i : Str) :
    obsResultMap rows' i = obsResultMap rows i := by
  cases hr : obsResultMap rows i with
  | none =>
    rw [obsResultMap_none_iff] at hr ⊢
    exact fun r hmem => hr r (hp.mem_iff.mpr hmem)
  | some r =>
    have hrid : r.id = i := obsResultMap_id hr
    have hrmem : r ∈ rows := by
      have := List.mem_of_find?_eq_some hr
      exact List.mem_reverse.mp this
    unfold obsResultMap
    rw [find?_eq_of_unique (x := r) (List.mem_reverse.mpr (hp.mem_iff.mp hrmem))
      (by simp [hrid]) ?_]
    intro y hy hpy
    refine List.inj_on_of_nodup_map hN
      (hp.mem_iff.mpr (List.mem_reverse.mp hy)) hrmem ?_
    rw [hrid]
    simpa using hpy

/-- Claim C5: get_observations order preservation — (1) the ids of the
returned rows are exactly the input ids that match some table row, in
input order (missing ids dropped, never reordered); (2) the result does
not depend on the order in which the store query returns the matching
rows: any permutation of the fetched rows assembles to the same output
(table ids assumed unique, as the id column is the primary key). -/
theorem C5_get_observations_order (db : DB) (ids : List Str)
    (hN : (db.map Row.id).Nodup) :
    ((GetObservations db ids).map Row.id =
        ids.filter (fun i => db.any (fun r => r.id == i)))
    ∧ ∀ rows', (FetchObservations db ids).Perm rows' →
        (if ids.isEmpty then [] else assembleObservations ids rows') =
          GetObservations db ids := by
  have hRowsN : ((FetchObservations db ids).map Row.id).Nodup := by
    unfold FetchObservations
    exact hN.sublist ((List.filter_sublist db).map Row.id)
  constructor
  · unfold GetObservations
    by_cases hids : ids.isEmpty
    · rw [if_pos hids]
      rw [List.isEmpty_iff.mp hids]
      rfl
    · rw [if_neg hids]
      rw [assemble_map_id]
      refine List.filter_congr ?_
      intro i hi
      unfold FetchObservations
      rcases hcase : db.any (fun r => r.id == i) with _ | _
      · rw [Bool.eq_false_iff]
        intro hcon
        rcases List.any_eq_true.mp hcon with ⟨r, hr, hri⟩
        have : db.any (fun r => r.id == i) = true :=
          List.any_eq_true.mpr ⟨r, (List.mem_filter.mp hr).1, hri⟩
        rw [hcase] at this
        cases this
      · rcases List.any_eq_true.mp hcase with ⟨r, hr, hri⟩
        refine List.any_eq_true.mpr ⟨r, ?_, hri⟩
        refine List.mem_filter.mpr ⟨hr, ?_⟩
        have : r.id = i := by simpa using hri
        rw [this]
        exact List.elem_eq_true_of_mem hi
  · intro rows' hperm
    unfold GetObservations
    by_cases hids : ids.isEmpty
    · rw [if_pos hids, if_pos hids]
    · rw [if_neg hids, if_neg hids]
      unfold assembleObservations
      refine List.filterMap_congr ?_
      intro i _
      exact obsResultMap_perm hRowsN hperm i

/-- Witness for C5: ids ["r0", "zz", "rA"] against a two-row table give
back rows for r0 and rA in that input order (zz dropped). -/
theorem C5_get_observations_order_witness :
    (GetObservations [rowA, row0] [str "r0", str "zz", str "rA"]).map Row.id =
      ([str "r0", str "zz", str "rA"].filter
        (fun i => ([rowA, row0] : DB).any (fun r => r.id == i))) :=
  (C5_get_observations_order [rowA, row0] [str "r0", str "zz", str "rA"]
    (by decide)).1


theorem normalize_length (e : EmbedderState) (hD : 0 < e.dimension) (v : Vec) :
    (normalize e v).length = e.dimension.toNat := by
  unfold normalize
  rw [if_neg (by omega)]
  by_cases h1 : v.length = e.dimension.toNat
  · rw [if_pos h1]; exact h1
  · rw [if_neg h1]
    by_cases h2 : v.length > e.dimension.toNat
    · rw [if_pos h2, List.length_take]; omega
    · rw [if_neg h2, List.length_append, List.length_replicate]; omega

theorem embedFold_lengths (env : EmbedEnv) (e : EmbedderState)
    (hD : 0 < e.dimension) :
    ∀ (cs : List (List Str)) (acc vs : List Vec),
      (∀ v ∈ acc, v.length = e.dimension.toNat) →
      cs.foldlM (embedChunkStep env e) acc = .ok vs →
      ∀ v ∈ vs, v.length = e.dimension.toNat := by
  intro cs
  induction cs with
  | nil =>
    intro acc vs hacc h
    simp only [List.foldlM_nil] at h
    cases h
    exact hacc
  | cons chunk t ih =>
    intro acc vs hacc h
    rw [List.foldlM_cons] at h
    cases hstep : embedChunkStep env e acc chunk with
    | error err => rw [hstep] at h; cases h
    | ok acc1 =>
      rw [hstep] at h
      simp only [bind, Except.bind] at h
      refine ih acc1 vs ?_ h
      unfold embedChunkStep at hstep
      cases hq : retryEmbeddings env e.model chunk with
      | error err => rw [hq] at hstep; cases hstep
      | ok vectors =>
        rw [hq] at hstep
        dsimp only at hstep
        by_cases hne : vectors.length ≠ chunk.length
        · rw [if_pos hne] at hstep; cases hstep
        · rw [if_neg hne] at hstep
          cases hstep
          intro v hv
          rcases List.mem_append.mp hv with h1 | h2
          · exact hacc v h1
          · rcases List.mem_map.mp h2 with ⟨u, _, hu⟩
            rw [← hu]
            exact normalize_length e hD u

theorem embed_lengths (env : EmbedEnv) (e : EmbedderState) (texts : List Str)
    (vs : List Vec) (hD : 0 < e.dimension) (h : embed env e texts = .ok vs) :
    ∀ v ∈ vs, v.length = e.dimension.toNat := by
  unfold embed at h
  split at h
  · cases h; intro v hv; cases hv
  · split at h
    · cases h
      intro v hv
      rcases List.mem_map.mp hv with ⟨t, _, ht⟩
      rw [← ht]
      exact normalize_length e hD _
    · split at h
      · split at h
        · cases h
        · exact embedFold_lengths env e hD _ _ vs (by intro v hv; cases hv) h
      · split at h
        · cases h
        · cases h

theorem mem_cacheInsert {cache : List (Str × Vec)} {k : Str} {v : Vec}
    {p : Str × Vec} (hp : p ∈ cacheInsert cache k v) :
    p ∈ cache ∨ p = (k, v) := by
  unfold cacheInsert at hp
  split at hp
  · rcases List.mem_map.mp hp with ⟨q, hq, hfq⟩
    by_cases hqk : (q.1 == k) = true
    · right; rw [if_pos hqk] at hfq; exact hfq.symm
    · left; rw [if_neg hqk] at hfq; exact hfq ▸ hq
  · rcases List.mem_append.mp hp with h | h
    · left; exact h
    · right; exact List.mem_singleton.mp h

theorem mem_pruneEmbedCache {env : EmbedEnv} {cache : List (Str × Vec)}
    {p : Str × Vec} (hp : p ∈ pruneEmbedCache env cache) : p ∈ cache := by
  unfold pruneEmbedCache at hp
  dsimp only at hp
  split at hp
  · exact (List.mem_filter.mp hp).1
  · exact (List.mem_filter.mp (List.mem_of_mem_take hp)).1

theorem setCachedVector_WF (env : EmbedEnv) (e : EmbedderState) (k : Str)
    (v : Vec) (hWF : CacheWF e) (hv : v.length = e.dimension.toNat) :
    CacheWF (setCachedVector env e k v) := by
  unfold setCachedVector
  split
  · exact hWF
  · intro p hp
    dsimp only at hp ⊢
    rcases mem_cacheInsert hp with h | h
    · split at h
      · exact hWF p (mem_pruneEmbedCache h)
      · exact hWF p h
    · rw [h]
      exact hv

theorem setCachedVector_dimension (env : EmbedEnv) (e : EmbedderState)
    (k : Str) (v : Vec) :
    (setCachedVector env e k v).dimension = e.dimension := by
  unfold setCachedVector
  split <;> rfl

/-- Claim C7: dimension normalization — for a positive configured
dimension D and a cache whose entries all have length D, every successful
EmbedQuery result has length exactly D, across the cached path, the mock
provider, the qwen provider (truncated or zero-padded vectors) and the
empty-provider-result fallback; the updated state keeps D and the cache
invariant. -/
theorem C7_dimension_normalization (env : EmbedEnv) (e : EmbedderState)
    (text : Str) (v : Vec) (eNext : EmbedderState)
    (hD : 0 < e.dimension) (hWF : CacheWF e)
    (hrun : EmbedQuery env e text = (.ok v, eNext)) :
    v.length = e.dimension.toNat ∧ CacheWF eNext ∧
      eNext.dimension = e.dimension := by
  unfold EmbedQuery at hrun
  dsimp only at hrun
  cases hget : getCachedVector env e (cacheKey e text) with
  | some cached =>
    rw [hget] at hrun
    cases hrun
    refine ⟨?_, hWF, rfl⟩
    unfold getCachedVector at hget
    by_cases hkey : (cacheKey e text == ([] : Str)) = true
    · rw [if_pos hkey] at hget; cases hget
    · rw [if_neg hkey] at hget
      cases hlk : cacheLookup e.queryCache (cacheKey e text) with
      | none => rw [hlk] at hget; cases hget
      | some v0 =>
        rw [hlk] at hget
        dsimp only at hget
        by_cases hexp : env.expired (cacheKey e text) = true
        · rw [if_pos hexp] at hget; cases hget
        · rw [if_neg hexp] at hget
          cases hget
          unfold cacheLookup at hlk
          cases hfd : e.queryCache.find? (fun p => p.1 == cacheKey e text) with
          | none => rw [hfd] at hlk; cases hlk
          | some p =>
            rw [hfd] at hlk
            cases hlk
            exact hWF p (List.mem_of_find?_eq_some hfd)
  | none =>
    rw [hget] at hrun
    cases hembed : embed env e [text] with
    | error err => rw [hembed] at hrun; cases hrun
    | ok vectors =>
      rw [hembed] at hrun
      cases vectors with
      | nil =>
        cases hrun
        exact ⟨List.length_replicate _ _, hWF, rfl⟩
      | cons v0 rest =>
        dsimp only at hrun
        cases hrun
        have hlen : v.length = e.dimension.toNat :=
          embed_lengths env e [text] (v :: rest) hD hembed v
            (List.mem_cons_self v rest)
        refine ⟨hlen, ?_, ?_⟩
        · by_cases hpos : v.length > 0
          · rw [if_pos hpos]
            exact setCachedVector_WF env e _ v hWF hlen
          · rw [if_neg hpos]
            exact hWF
        · by_cases hpos : v.length > 0
          · rw [if_pos hpos]
            exact setCachedVector_dimension env e _ v
          · rw [if_neg hpos]

/-- Embedder environment for the C7 witness: the provider returns one
3-element vector. -/
def embEnv0 : EmbedEnv :=
  { qwen := fun _ _ _ => .ok [[1, 2, 3]]
    md5 := fun _ => List.replicate 16 0
    expired := fun _ => false }

/-- Embedder state for the C7 witness: qwen provider, dimension 2, empty
cache. -/
def emb0 : EmbedderState :=
  { provider := str "qwen"
    model := str "m"
    dimension := 2
    batchSize := 10
    queryCache := [] }

/-- Witness for C7: the provider's 3-element vector is truncated to the
configured dimension 2, and the updated state keeps the invariant. -/
theorem C7_dimension_normalization_witness :
    ([(1 : Score), 2] : Vec).length = (emb0.dimension).toNat ∧
      CacheWF (EmbedQuery embEnv0 emb0 (str "t")).2 ∧
      ((EmbedQuery embEnv0 emb0 (str "t")).2).dimension = emb0.dimension :=
  C7_dimension_normalization embEnv0 emb0 (str "t") [1, 2]
    (EmbedQuery embEnv0 emb0 (str "t")).2 (by decide)
    (by intro p hp; cases hp) (by rfl)


/-- Counterexample for C8: under the default configuration the code
ingests ".claude/session.log" (a dialogue path outside every watch
directory, bypassing the whole filter, not just the extension check) and
"docs/NOTES" (no extension at all, so the allowed-extension requirement
is skipped), while the filter as the claim words it rejects both. -/
theorem C8_watch_filter_counterexample :
    (processFileAdmits defaultWatcherConfig (str ".claude/session.log") = true ∧
      claimWatchFilter defaultWatcherConfig (str ".claude/session.log") = false)
    ∧ (processFileAdmits defaultWatcherConfig (str "docs/NOTES") = true ∧
      claimWatchFilter defaultWatcherConfig (str "docs/NOTES") = false) := by
  decide

/-- Claim C8 (amended): a file reaches ingestion only if its basename is
in the watch-root allowlist, or it is a dialogue path (which bypasses the
entire watch filter), or its extension is empty or in the allowed set AND
no path segment is in the ignore-dirs set AND the path's first segment is
one of the configured watch directories. -/
theorem C8_watch_filter_soundness (cfg : WatcherConfig) (rel : Str)
    (h : processFileAdmits cfg rel = true) :
    cfg.watchRoot.any (fun name => name == goBase rel) = true
    ∨ isDialoguePath rel = true
    ∨ ((goExt rel = ([] : Str) ∨
          cfg.extensions.any (fun v => v == goExt rel) = true)
        ∧ (splitChar '/' rel).any
            (fun part => cfg.ignoreDirs.any (fun ig => ig == part)) = false
        ∧ ∃ top rest, splitChar '/' rel = top :: rest ∧
            cfg.watchDirs.any (fun dir => dir == top) = true) := by
  unfold processFileAdmits at h
  rcases (Bool.or_eq_true _ _).mp h with hsw | hdia
  · unfold shouldWatchFile at hsw
    dsimp only at hsw
    by_cases hroot : cfg.watchRoot.any (fun name => name == goBase rel) = true
    · exact Or.inl hroot
    · rw [if_neg hroot] at hsw
      refine Or.inr (Or.inr ?_)
      by_cases hextOk : (if goExt rel == ([] : Str) then true
          else cfg.extensions.any (fun v => v == goExt rel)) = true
      · rw [show (!(if goExt rel == ([] : Str) then true
            else cfg.extensions.any (fun v => v == goExt rel))) = false
            from by rw [hextOk]; rfl] at hsw
        rw [if_neg (by simp)] at hsw
        by_cases hig : (splitChar '/' rel).any
            (fun part => cfg.ignoreDirs.any (fun ig => ig == part)) = true
        · rw [if_pos hig] at hsw; cases hsw
        · rw [if_neg hig] at hsw
          refine ⟨?_, by simpa using hig, ?_⟩
          · by_cases hext : goExt rel == ([] : Str)
            · exact Or.inl (by simpa using hext)
            · rw [if_neg hext] at hextOk
              exact Or.inr hextOk
          · rcases hparts : splitChar '/' rel with _ | ⟨top, rest⟩
            · rw [hparts] at hsw; cases hsw
            · rw [hparts] at hsw
              exact ⟨top, rest, rfl, hsw⟩
      · rw [show (!(if goExt rel == ([] : Str) then true
            else cfg.extensions.any (fun v => v == goExt rel))) = true
            from by rw [Bool.eq_false_iff.mpr hextOk]; rfl] at hsw
        rw [if_pos rfl] at hsw
        cases hsw
  · exact Or.inr (Or.inl hdia)

/-- Witness for the amended C8: "docs/a.md" is admitted and satisfies the
third disjunct of the amended filter condition. -/
theorem C8_watch_filter_soundness_witness :
    defaultWatcherConfig.watchRoot.any
        (fun name => name == goBase (str "docs/a.md")) = true
    ∨ isDialoguePath (str "docs/a.md") = true
    ∨ ((goExt (str "docs/a.md") = ([] : Str) ∨
          defaultWatcherConfig.extensions.any
            (fun v => v == goExt (str "docs/a.md")) = true)
        ∧ (splitChar '/' (str "docs/a.md")).any
            (fun part => defaultWatcherConfig.ignoreDirs.any
              (fun ig => ig == part)) = false
        ∧ ∃ top rest, splitChar '/' (str "docs/a.md") = top :: rest ∧
            defaultWatcherConfig.watchDirs.any
              (fun dir => dir == top) = true) :=
  C8_watch_filter_soundness defaultWatcherConfig (str "docs/a.md") (by decide)


/-- The length of a filterMap is the number of elements the function
keeps. -/
theorem length_filterMap_isSome {α β : Type} (f : α → Option β)
    (l : List α) :
    (l.filterMap f).length =
      (l.filter fun a => (f a).isSome).length := by
  induction l with
  | nil => rfl
  | cons a t ih =>
    simp only [List.filterMap_cons, List.filter_cons]
    cases h : f a <;> simp [h, ih]

/-- Every row SearchVector returns is the projection of a table row that
passed the filters; under must_latest only latest rows pass. -/
theorem mem_searchVector {dist : Row → Score} {db : DB} {p : SearchParams}
    {sr : SearchRow} (h : sr ∈ SearchVector dist db p) :
    ∃ r ∈ db, (p.mustLatest = true → r.isLatest = true) ∧
      sr = mkSearchRow dist r := by
  unfold SearchVector at h
  dsimp only at h
  rcases List.mem_map.mp h with ⟨r, hr, hsr⟩
  have hr' := List.mem_of_mem_take hr
  have hrm : r ∈ db.filter fun r =>
      (!p.mustLatest || r.isLatest) &&
      (p.projectId == ([] : Str) || r.projectId == p.projectId) &&
      (p.docTypes.isEmpty || p.docTypes.contains r.docType) &&
      (p.knowledgeTypes.isEmpty ||
        p.knowledgeTypes.contains r.knowledgeType) &&
      (match p.since with
       | none => true
       | some t => decide (t ≤ coalesceTime r)) := by
    by_cases hob : (p.orderBy == str "time_desc") = true
    · rw [if_pos hob] at hr'
      exact ((List.perm_insertionSort _ _).mem_iff).mp hr'
    · rw [if_neg hob] at hr'
      exact ((List.perm_insertionSort _ _).mem_iff).mp hr'
  rcases List.mem_filter.mp hrm with ⟨hdb, hpred⟩
  refine ⟨r, hdb, ?_, hsr.symm⟩
  intro hml
  simp only [Bool.and_eq_true] at hpred
  have h1 := hpred.1.1.1.1
  rw [hml] at h1
  simpa using h1

/-- A rerank item that produces an entry indexes a row of the input, and
the entry is that row with the item relevance score and the rerank mark. -/
theorem mem_rerankEntry {rows : List SearchRow} {item : RerankResult}
    {entry : SearchResult} (h : rerankEntry rows item = some entry) :
    ∃ sr ∈ rows, entry =
      ⟨sr.id, sr.title, sr.filePath, sr.summary, sr.docType,
        sr.knowledgeType, item.relevanceScore, sr.projectId, true⟩ := by
  unfold rerankEntry at h
  split at h
  · cases h
  · rcases Option.map_eq_some'.mp h with ⟨row, hget, heq⟩
    exact ⟨row, List.get?_mem hget, heq.symm⟩

/-- Entries of a take of the plain result mapping are backed by rows. -/
theorem backed_of_mem_fallback {rows : List SearchRow} {n : Nat}
    {entry : SearchResult} (h : entry ∈ (rows.map toResult).take n) :
    ∃ sr ∈ rows, entry.id = sr.id ∧ entry.projectId = sr.projectId := by
  rcases List.mem_map.mp (List.mem_of_mem_take h) with ⟨sr, hsr, he⟩
  subst he
  exact ⟨sr, hsr, rfl, rfl⟩

/-- Entries of the rerank stage are backed by rows of its input. -/
theorem backed_of_mem_rerankStage {env : SearchEnv} {q : Str} {limit : Int}
    {rows : List SearchRow} {entry : SearchResult}
    (h : entry ∈ rerankStage env q limit rows) :
    ∃ sr ∈ rows, entry.id = sr.id ∧ entry.projectId = sr.projectId := by
  unfold rerankStage at h
  split at h
  · exact backed_of_mem_fallback h
  · split at h
    · exact backed_of_mem_fallback h
    · have h2 := ((List.perm_insertionSort _ _).mem_iff).mp
        (List.mem_of_mem_take h)
      rcases List.mem_filterMap.mp h2 with ⟨item, _, hsome⟩
      rcases mem_rerankEntry hsome with ⟨sr, hsr, heq⟩
      subst heq
      exact ⟨sr, hsr, rfl, rfl⟩

/-- Claim C10: with intent routing disabled the store is always queried
with must_latest = true, every entry a successful non-routed search
returns is backed by a table row with is_latest = true, and the
latest-only restriction is lifted only when routing is on and the chosen
route's must_latest is false. -/
theorem C10_must_latest_when_routing_disabled (env : SearchEnv) (db : DB)
    (inp : SearchInput) (res : List SearchResult)
    (hnr : inp.useRouting = some false)
    (hrun : searcherSearch env db inp = .ok res) :
    (searchParamsOf env inp).mustLatest = true ∧
    (∀ entry ∈ res, ∃ r ∈ db, r.isLatest = true ∧ entry.id = r.id ∧
      entry.projectId = r.projectId) ∧
    (∀ inp2 : SearchInput, (searchParamsOf env inp2).mustLatest = false →
      inp2.useRouting.getD true = true ∧
      (env.route (searchQuery inp2)).mustLatest = false) := by
  have hml : (searchParamsOf env inp).mustLatest = true := by
    simp [searchParamsOf, routeState, hnr]
  refine ⟨hml, ?_, ?_⟩
  · intro entry hentry
    unfold searcherSearch at hrun
    split at hrun
    · cases hrun
    · rcases hemb : env.embedQuery (searchQuery inp) with e | vec
      all_goals rw [hemb] at hrun
      all_goals dsimp only at hrun
      · cases hrun
      · split at hrun
        · rcases hrun with ⟨⟩
          rcases backed_of_mem_fallback hentry with ⟨sr, hsr, h1, h2⟩
          rcases mem_searchVector hsr with ⟨r, hrdb, hlat, hproj⟩
          subst hproj
          exact ⟨r, hrdb, hlat hml, h1, h2⟩
        · rcases hrun with ⟨⟩
          rcases backed_of_mem_rerankStage hentry with ⟨sr, hsr, h1, h2⟩
          rcases mem_searchVector hsr with ⟨r, hrdb, hlat, hproj⟩
          subst hproj
          exact ⟨r, hrdb, hlat hml, h1, h2⟩
  · intro inp2 hfalse
    simp only [searchParamsOf] at hfalse
    unfold routeState at hfalse
    by_cases hr : inp2.useRouting.getD true = true
    · rw [if_pos hr] at hfalse
      dsimp only at hfalse
      exact ⟨hr, hfalse⟩
    · rw [if_neg hr] at hfalse
      dsimp only at hfalse
      cases hfalse

/-- Witness for C10: a routed-off search of a one-row table returns the
single latest row and is queried with must_latest = true. -/
theorem C10_must_latest_when_routing_disabled_witness :
    (searchParamsOf envS inpS).mustLatest = true ∧
    (∀ entry ∈ resS, ∃ r ∈ [rowA], r.isLatest = true ∧ entry.id = r.id ∧
      entry.projectId = r.projectId) ∧
    (∀ inp2 : SearchInput, (searchParamsOf envS inp2).mustLatest = false →
      inp2.useRouting.getD true = true ∧
      (envS.route (searchQuery inp2)).mustLatest = false) :=
  C10_must_latest_when_routing_disabled envS [rowA] inpS resS rfl rfl


/-- Claim C9: with reranking active (query non-empty, embedding ok, the
rerank flag resolved to true, rows found) the search result is exactly the
rerank stage of the vector-search rows; that stage falls back to the first
limit rows with their cosine-derived scores when the rerank call errors or
answers empty, and otherwise consists of the rows selected by the rerank
items (score = relevance_score, is_reranked = true), sorted by score
descending, trimmed to limit, with exactly min(valid items, limit) entries
and no backfill from the pre-rerank list. -/
theorem C9_rerank_postcondition (env : SearchEnv) (db : DB)
    (inp : SearchInput) (vec : Vec)
    (hq : ¬ searchQuery inp = ([] : Str))
    (hvec : env.embedQuery (searchQuery inp) = .ok vec)
    (hrr : searchUseRerank env inp = true)
    (hrows : ¬ searchRows env db inp vec = []) :
    searcherSearch env db inp =
      .ok (rerankStage env (searchQuery inp) (searchLimit inp)
        (searchRows env db inp vec)) ∧
    (∀ e, env.rerank (searchQuery inp)
        (rerankDocs (searchRows env db inp vec)) (searchLimit inp) =
        .error e →
      rerankStage env (searchQuery inp) (searchLimit inp)
          (searchRows env db inp vec) =
        ((searchRows env db inp vec).map toResult).take
          (searchLimit inp).toNat) ∧
    (env.rerank (searchQuery inp)
        (rerankDocs (searchRows env db inp vec)) (searchLimit inp) =
        .ok [] →
      rerankStage env (searchQuery inp) (searchLimit inp)
          (searchRows env db inp vec) =
        ((searchRows env db inp vec).map toResult).take
          (searchLimit inp).toNat) ∧
    (∀ items, env.rerank (searchQuery inp)
        (rerankDocs (searchRows env db inp vec)) (searchLimit inp) =
        .ok items →
      ¬ items = [] →
      rerankStage env (searchQuery inp) (searchLimit inp)
          (searchRows env db inp vec) =
        (List.insertionSort scoreDescLE
          (items.filterMap (rerankEntry (searchRows env db inp vec)))).take
          (searchLimit inp).toNat ∧
      (rerankStage env (searchQuery inp) (searchLimit inp)
          (searchRows env db inp vec)).length =
        min ((items.filter fun it =>
          (rerankEntry (searchRows env db inp vec) it).isSome).length)
          (searchLimit inp).toNat ∧
      (rerankStage env (searchQuery inp) (searchLimit inp)
          (searchRows env db inp vec)).Sorted scoreDescLE ∧
      ∀ entry ∈ rerankStage env (searchQuery inp) (searchLimit inp)
          (searchRows env db inp vec),
        entry.isReranked = true ∧ ∃ item ∈ items,
          rerankEntry (searchRows env db inp vec) item = some entry ∧
          entry.score = item.relevanceScore) := by
  have hie : (searchRows env db inp vec).isEmpty = false := by
    rcases hsr : searchRows env db inp vec with _ | ⟨a, l⟩
    · exact absurd hsr hrows
    · rfl
  have hq2 : (searchQuery inp == ([] : Str)) = false :=
    beq_eq_false_iff_ne.mpr hq
  refine ⟨?_, ?_, ?_, ?_⟩
  · unfold searcherSearch
    simp [hq2, hvec, hrr, hie]
  · intro e herr
    unfold rerankStage
    rw [herr]
  · intro hempty
    unfold rerankStage
    rw [hempty]
    rfl
  · intro items hok hne
    have hine : items.isEmpty = false := by
      cases items
      · exact absurd rfl hne
      · rfl
    have hstage : rerankStage env (searchQuery inp) (searchLimit inp)
        (searchRows env db inp vec) =
        (List.insertionSort scoreDescLE
          (items.filterMap (rerankEntry (searchRows env db inp vec)))).take
          (searchLimit inp).toNat := by
      unfold rerankStage
      rw [hok]
      dsimp only
      rw [hine]
      rfl
    refine ⟨hstage, ?_, ?_, ?_⟩
    · rw [hstage, List.length_take,
        List.Perm.length_eq (List.perm_insertionSort _ _),
        length_filterMap_isSome, Nat.min_comm]
    · rw [hstage]
      exact List.Pairwise.sublist (List.take_sublist _ _)
        (List.sorted_insertionSort _ _)
    · intro entry hentry
      rw [hstage] at hentry
      have h2 := ((List.perm_insertionSort _ _).mem_iff).mp
        (List.mem_of_mem_take hentry)
      rcases List.mem_filterMap.mp h2 with ⟨item, hitem, hsome⟩
      rcases mem_rerankEntry hsome with ⟨sr, _, heq⟩
      subst heq
      exact ⟨rfl, item, hitem, hsome, rfl⟩

/-- Witness for C9: a rerank-requested search over a one-row table with a
failing reranker, so the stage falls back to the plain rows. -/
theorem C9_rerank_postcondition_witness :
    searcherSearch envS [rowA] inpR =
      .ok (rerankStage envS (searchQuery inpR) (searchLimit inpR)
        (searchRows envS [rowA] inpR [1])) ∧
    (∀ e, envS.rerank (searchQuery inpR)
        (rerankDocs (searchRows envS [rowA] inpR [1]))
        (searchLimit inpR) = .error e →
      rerankStage envS (searchQuery inpR) (searchLimit inpR)
          (searchRows envS [rowA] inpR [1]) =
        ((searchRows envS [rowA] inpR [1]).map toResult).take
          (searchLimit inpR).toNat) ∧
    (envS.rerank (searchQuery inpR)
        (rerankDocs (searchRows envS [rowA] inpR [1]))
        (searchLimit inpR) = .ok [] →
      rerankStage envS (searchQuery inpR) (searchLimit inpR)
          (searchRows envS [rowA] inpR [1]) =
        ((searchRows envS [rowA] inpR [1]).map toResult).take
          (searchLimit inpR).toNat) ∧
    (∀ items, envS.rerank (searchQuery inpR)
        (rerankDocs (searchRows envS [rowA] inpR [1]))
        (searchLimit inpR) = .ok items →
      ¬ items = [] →
      rerankStage envS (searchQuery inpR) (searchLimit inpR)
          (searchRows envS [rowA] inpR [1]) =
        (List.insertionSort scoreDescLE
          (items.filterMap
            (rerankEntry (searchRows envS [rowA] inpR [1])))).take
          (searchLimit inpR).toNat ∧
      (rerankStage envS (searchQuery inpR) (searchLimit inpR)
          (searchRows envS [rowA] inpR [1])).length =
        min ((items.filter fun it =>
          (rerankEntry (searchRows envS [rowA] inpR [1]) it).isSome).length)
          (searchLimit inpR).toNat ∧
      (rerankStage envS (searchQuery inpR) (searchLimit inpR)
          (searchRows envS [rowA] inpR [1])).Sorted scoreDescLE ∧
      ∀ entry ∈ rerankStage envS (searchQuery inpR) (searchLimit inpR)
          (searchRows envS [rowA] inpR [1]),
        entry.isReranked = true ∧ ∃ item ∈ items,
          rerankEntry (searchRows envS [rowA] inpR [1]) item = some entry ∧
          entry.score = item.relevanceScore) :=
  C9_rerank_postcondition envS [rowA] inpR [1] (by decide) rfl rfl
    (by decide)


/-- Claim C6 counterexample: the parsed body is the trimmed body plus a
trailing newline, never byte-identical to a non-empty trimmed body
(content "hello" with knowledge_type "doc"); and a tag containing "---"
shifts the fence split, corrupting the body and the mapping (content "x"
with tags ["---"] parses to body "---\nx\n"). -/
theorem C6_front_matter_roundtrip_counterexample :
    (¬ (parseFrontMatter (ensureFrontMatter (str "hello") (str "doc")
        [] [])).2 = trimSpace (str "hello")) ∧
    (parseFrontMatter (ensureFrontMatter (str "hello") (str "doc")
        [] [])).2 = trimSpace (str "hello") ++ ['\n'] ∧
    (¬ (parseFrontMatter (ensureFrontMatter (str "x") [] []
        [str "---"])).2 = trimSpace (str "x")) ∧
    (parseFrontMatter (ensureFrontMatter (str "x") [] []
        [str "---"])).2 = str "---\nx\n" ∧
    (¬ (str "tags", YamlVal.list [str "---"]) ∈
        (parseFrontMatter (ensureFrontMatter (str "x") [] []
          [str "---"])).1) := by decide


theorem benign_bounds {c : Char} (h : benignChar c = true) :
    48 ≤ c.toNat ∧ c.toNat ≤ 122 := by
  simp only [benignChar, Bool.or_eq_true, Bool.and_eq_true, decide_eq_true_eq,
    beq_iff_eq, or_assoc] at h
  rcases h with ⟨h1, h2⟩ | ⟨h1, h2⟩ | ⟨h1, h2⟩ | h1 <;> omega

theorem benignChar_not_space {c : Char} (h : benignChar c = true) :
    goIsSpace c = false := by
  have hb := benign_bounds h
  rw [Bool.eq_false_iff]
  intro hs
  simp only [goIsSpace, Bool.or_eq_true, Bool.and_eq_true, decide_eq_true_eq,
    beq_iff_eq, or_assoc] at hs
  rcases hs with ⟨h1, h2⟩ | h1 | h1 | h1 | h1 | ⟨h1, h2⟩ | h1 | h1 | h1 |
    h1 | h1 <;> omega

theorem benignChar_ne {c : Char} (h : benignChar c = true) :
    ¬ c = '-' ∧ ¬ c = ':' ∧ ¬ c = '\n' ∧ ¬ c = ' ' := by
  refine ⟨?_, ?_, ?_, ?_⟩ <;>
    · intro he
      subst he
      exact absurd h (by decide)

theorem benignVal_parts {v : Str} (h : benignVal v = true) :
    (∃ c0 t0, v = c0 :: t0) ∧ ∀ ch ∈ v, benignChar ch = true := by
  rw [benignVal, Bool.and_eq_true] at h
  constructor
  · cases v with
    | nil => simp at h
    | cons c t => exact ⟨c, t, rfl⟩
  · intro ch hch
    exact List.all_eq_true.mp h.2 ch hch

theorem isPrefixOf_self_append (p t : Str) : p.isPrefixOf (p ++ t) = true := by
  induction p with
  | nil => simp [List.isPrefixOf]
  | cons a s ih => simp [List.isPrefixOf, ih]

theorem notPrefix_cons {a x : Char} (s rest : Str) (h : ¬ a = x) :
    (a :: s).isPrefixOf (x :: rest) = false := by
  simp [List.isPrefixOf, h]

theorem dashSafe_cons {c : Char} {X : Str} (h : ¬ c = '-')
    (hX : dashSafe X = true) : dashSafe (c :: X) = true := by
  cases X with
  | nil => simp [dashSafe, h]
  | cons d rest => simp [dashSafe, h, hX]

theorem dashSafe_tail {c d : Char} {rest : Str}
    (h : dashSafe (c :: d :: rest) = true) : dashSafe (d :: rest) = true := by
  simp [dashSafe] at h
  exact h.2

theorem dashSafe_append {a b : Str} (ha : dashSafe a = true)
    (hb : dashSafe b = true) : dashSafe (a ++ b) = true := by
  induction a with
  | nil => simpa
  | cons c a2 ih =>
    cases a2 with
    | nil =>
      have hc : ¬ c = '-' := by
        intro he
        subst he
        simp [dashSafe] at ha
      have he : ([c] : Str) ++ b = c :: b := rfl
      rw [he]
      exact dashSafe_cons hc hb
    | cons d a3 =>
      have h2 := ih (dashSafe_tail ha)
      simp only [dashSafe] at ha ⊢
      simp only [Bool.and_eq_true] at ha ⊢
      exact ⟨ha.1, h2⟩

theorem dashSafe_of_chars {v : Str} (h : ∀ ch ∈ v, benignChar ch = true) :
    dashSafe v = true := by
  induction v with
  | nil => rfl
  | cons c rest ih =>
    exact dashSafe_cons ((benignChar_ne (h c (List.mem_cons_self c rest))).1)
      (ih fun x hx => h x (List.mem_cons_of_mem c hx))

theorem dropWhile_head_false {p : Char → Bool} {l : List Char} {c : Char}
    {t : List Char} (h : l.dropWhile p = c :: t) : p c = false := by
  induction l with
  | nil => cases h
  | cons a l2 ih =>
    rw [List.dropWhile_cons] at h
    by_cases hp : p a = true
    · rw [if_pos hp] at h
      exact ih h
    · rw [if_neg hp] at h
      cases h
      exact Bool.eq_false_iff.mpr hp

theorem trimSpace_head {s : Str} {c : Char} {t : Str}
    (h : trimSpace s = c :: t) : goIsSpace c = false := by
  unfold trimSpace at h
  rw [List.reverse_eq_iff] at h
  have hsuf : ((s.dropWhile goIsSpace).reverse.dropWhile goIsSpace) <:+
      (s.dropWhile goIsSpace).reverse := List.dropWhile_suffix _
  rw [h] at hsuf
  have hpre : (c :: t) <+: s.dropWhile goIsSpace :=
    List.reverse_suffix.mp hsuf
  rcases hpre with ⟨r, hr⟩
  exact dropWhile_head_false hr.symm

theorem trimSpace_eq_self {s : Str} (h : ∀ c ∈ s, goIsSpace c = false) :
    trimSpace s = s := by
  cases s with
  | nil => rfl
  | cons c t =>
    unfold trimSpace
    rw [List.dropWhile_cons,
      if_neg (by simp [h c (List.mem_cons_self c t)])]
    rcases hrev : (c :: t).reverse with _ | ⟨x, xs⟩
    · exact absurd hrev (by simp)
    · have hx : x ∈ c :: t := by
        rw [← List.mem_reverse, hrev]
        exact List.mem_cons_self x xs
      rw [List.dropWhile_cons, if_neg (by simp [h x hx]), ← hrev,
        List.reverse_reverse]

theorem trimSpace_wrap {core : Str}
    (hne : ¬ core = [])
    (hh : ∀ x, core.head? = some x → goIsSpace x = false)
    (hl : ∀ x, core.getLast? = some x → goIsSpace x = false) :
    trimSpace ('\n' :: core ++ ['\n']) = core := by
  rcases core with _ | ⟨c0, rest⟩
  · exact absurd rfl hne
  · have h0 : goIsSpace c0 = false := hh c0 rfl
    unfold trimSpace
    rw [show ('\n' :: (c0 :: rest) ++ ['\n'] : Str) =
      '\n' :: (c0 :: (rest ++ ['\n'])) from rfl]
    rw [List.dropWhile_cons, if_pos (by decide)]
    rw [List.dropWhile_cons, if_neg (by simp [h0])]
    rw [show (c0 :: (rest ++ ['\n']) : Str) = (c0 :: rest) ++ ['\n'] from rfl,
      List.reverse_append]
    rw [show ((['\n'] : Str).reverse ++ (c0 :: rest).reverse) =
      '\n' :: (c0 :: rest).reverse from rfl]
    rw [List.dropWhile_cons, if_pos (by decide)]
    rcases hrev : (c0 :: rest).reverse with _ | ⟨x, xs⟩
    · exact absurd hrev (by simp)
    · have hx : goIsSpace x = false := by
        apply hl
        rw [← List.head?_reverse, hrev]
        rfl
      rw [List.dropWhile_cons, if_neg (by simp [hx]), ← hrev,
        List.reverse_reverse]


theorem splitChar_no_sep {sep : Char} {s : Str} (h : ∀ c ∈ s, ¬ c = sep) :
    splitChar sep s = [s] := by
  induction s with
  | nil => rfl
  | cons c t ih =>
    have hr := ih fun x hx => h x (List.mem_cons_of_mem c hx)
    simp only [splitChar, hr]
    rw [if_neg (h c (List.mem_cons_self c t))]

theorem splitChar_break {sep : Char} {a : Str} (b : Str)
    (h : ∀ c ∈ a, ¬ c = sep) :
    splitChar sep (a ++ sep :: b) = a :: splitChar sep b := by
  induction a with
  | nil =>
    rw [List.nil_append]
    simp [splitChar]
  | cons c a2 ih =>
    have hr := ih fun x hx => h x (List.mem_cons_of_mem c hx)
    rw [List.cons_append]
    simp only [splitChar, hr]
    rw [if_neg (h c (List.mem_cons_self c a2))]

theorem nlSep_cons_cons (l m : Str) (rest : List Str) :
    nlSep (l :: m :: rest) = l ++ '\n' :: nlSep (m :: rest) := rfl

theorem nlSep_flatten (ls : List Str) (h : ¬ ls = []) :
    nlSep ls ++ ['\n'] = (ls.map fun l => l ++ ['\n']).flatten := by
  induction ls with
  | nil => exact absurd rfl h
  | cons l rest ih =>
    cases rest with
    | nil => simp [nlSep]
    | cons m r =>
      have h2 := ih (by simp)
      rw [nlSep_cons_cons, List.map_cons, List.flatten_cons, ← h2]
      simp [List.append_assoc]

theorem nlSep_concat (xs : List Str) (y : Str) (h : ¬ xs = []) :
    nlSep (xs ++ [y]) = nlSep xs ++ '\n' :: y := by
  induction xs with
  | nil => exact absurd rfl h
  | cons x rest ih =>
    cases rest with
    | nil => simp [nlSep]
    | cons m r =>
      have h2 := ih (by simp)
      rw [show ((x :: m :: r) ++ [y] : List Str) =
        x :: m :: (r ++ [y]) from rfl]
      rw [nlSep_cons_cons]
      rw [show ((m :: r) ++ [y] : List Str) = m :: (r ++ [y]) from rfl] at h2
      rw [h2, nlSep_cons_cons]
      simp [List.append_assoc]

theorem splitChar_nlSep {ls : List Str}
    (h : ∀ l ∈ ls, ∀ ch ∈ l, ¬ ch = '\n') (hne : ¬ ls = []) :
    splitChar '\n' (nlSep ls) = ls := by
  induction ls with
  | nil => exact absurd rfl hne
  | cons l rest ih =>
    cases rest with
    | nil => exact splitChar_no_sep (h l (List.mem_cons_self l []))
    | cons m r =>
      rw [nlSep_cons_cons,
        splitChar_break _ (h l (List.mem_cons_self l (m :: r))),
        ih (fun x hx => h x (List.mem_cons_of_mem l hx)) (by simp)]

theorem splitOnce_fence (b c : Str) (hb : dashSafe b = true) :
    splitOnce (str "---") (b ++ str "---" ++ c) = some (b, c) := by
  induction b with
  | nil =>
    rw [List.nil_append]
    rw [show ((str "---") ++ c : Str) = '-' :: '-' :: '-' :: c from rfl]
    simp only [splitOnce]
    rw [if_pos (by
      rw [show ('-' :: '-' :: '-' :: c : Str) = (str "---") ++ c from rfl]
      exact isPrefixOf_self_append _ _)]
    rfl
  | cons x b2 ih =>
    rw [show ((x :: b2) ++ str "---" ++ c : Str) =
      x :: (b2 ++ str "---" ++ c) from by simp]
    simp only [splitOnce]
    have hpre : (str "---").isPrefixOf (x :: (b2 ++ str "---" ++ c)) =
        false := by
      by_cases hx : x = '-'
      · subst hx
        cases b2 with
        | nil => exact absurd hb (by decide)
        | cons d r =>
          have hd : d = ' ' := by
            simp only [dashSafe, Bool.and_eq_true, Bool.or_eq_true,
              Bool.not_eq_true', beq_iff_eq] at hb
            rcases hb.1 with h1 | h1
            · exact absurd h1 (by decide)
            · exact h1
          subst hd
          have h2 : (('-' :: '-' :: ([] : Str))).isPrefixOf
              (' ' :: (r ++ ['-', '-', '-'] ++ c)) = false :=
            notPrefix_cons _ _ (by decide)
          rw [show ((' ' :: r : Str) ++ str "---" ++ c) =
            ' ' :: (r ++ str "---" ++ c) from by simp]
          rw [show (str "---" : Str) = '-' :: '-' :: '-' :: [] from rfl]
          simp [List.isPrefixOf, h2]
      · exact notPrefix_cons _ _ fun he => hx he.symm
    rw [hpre]
    have hb2 : dashSafe b2 = true := by
      cases b2 with
      | nil => rfl
      | cons d r => exact dashSafe_tail hb
    rw [if_neg (by simp)]
    rw [ih hb2]

theorem splitOnce_fence0 (c : Str) :
    splitOnce (str "---") (str "---" ++ c) = some ([], c) := by
  have h := splitOnce_fence [] c rfl
  rwa [List.nil_append] at h

theorem splitOnce_colon (b c : Str) (hb : ∀ ch ∈ b, ¬ ch = ':') :
    splitOnce (str ": ") (b ++ str ": " ++ c) = some (b, c) := by
  induction b with
  | nil =>
    rw [List.nil_append]
    rw [show ((str ": ") ++ c : Str) = ':' :: ' ' :: c from rfl]
    simp only [splitOnce]
    rw [if_pos (by
      rw [show (':' :: ' ' :: c : Str) = (str ": ") ++ c from rfl]
      exact isPrefixOf_self_append _ _)]
    rfl
  | cons x b2 ih =>
    rw [show ((x :: b2) ++ str ": " ++ c : Str) =
      x :: (b2 ++ str ": " ++ c) from by simp]
    simp only [splitOnce]
    have hpre : (str ": ").isPrefixOf (x :: (b2 ++ str ": " ++ c)) =
        false :=
      notPrefix_cons _ _ fun he =>
        hb x (List.mem_cons_self x b2) he.symm
    rw [hpre]
    rw [if_neg (by simp)]
    rw [ih fun ch hch => hb ch (List.mem_cons_of_mem x hch)]


theorem decodeYamlAux_scalar (b v : Str) (rest : List Str)
    (done : List (Str × YamlVal)) (c0 : Char) (t0 : Str)
    (hb : b = c0 :: t0) (hc0 : ¬ c0 = ' ')
    (hbc : ∀ ch ∈ b, ¬ ch = ':')
    (hv : ∀ ch ∈ v, goIsSpace ch = false) :
    decodeYamlAux ((b ++ str ": " ++ v) :: rest) done none =
      decodeYamlAux rest (done ++ [(b, .s v)]) none := by
  subst hb
  simp only [decodeYamlAux]
  have hpre : (str "  - ").isPrefixOf ((c0 :: t0) ++ str ": " ++ v) =
      false := by
    rw [show ((c0 :: t0) ++ str ": " ++ v : Str) =
      c0 :: (t0 ++ str ": " ++ v) from by simp]
    rw [show (str "  - " : Str) = ' ' :: ' ' :: '-' :: ' ' :: [] from rfl]
    exact notPrefix_cons _ _ fun he => hc0 he.symm
  rw [hpre]
  rw [if_neg (by simp)]
  rw [splitOnce_colon _ _ hbc]
  dsimp only
  rw [trimSpace_eq_self hv]

theorem decodeYamlAux_tags_open (rest : List Str)
    (done : List (Str × YamlVal)) :
    decodeYamlAux (str "tags:" :: rest) done none =
      decodeYamlAux rest done (some (str "tags", [])) := rfl

theorem decodeYamlAux_items (ts : List Str)
    (hts : ∀ t ∈ ts, ∀ ch ∈ t, goIsSpace ch = false)
    (done : List (Str × YamlVal)) (k : Str) (items : List Str) :
    decodeYamlAux (ts.map fun t => str "  - " ++ t) done (some (k, items)) =
      done ++ [(k, .list (items ++ ts))] := by
  induction ts generalizing items with
  | nil => simp [decodeYamlAux]
  | cons t ts2 ih =>
    rw [List.map_cons]
    simp only [decodeYamlAux]
    rw [isPrefixOf_self_append]
    rw [if_pos rfl]
    rw [show ((str "  - " ++ t : Str)).drop 4 = t from rfl]
    rw [trimSpace_eq_self (hts t (List.mem_cons_self t ts2))]
    rw [ih fun x hx => hts x (List.mem_cons_of_mem t hx)]
    simp

theorem decodeYaml_lines (k i : Str) (tags : List Str)
    (hk : benignVal k = true) (hi : benignVal i = true)
    (htags : ∀ t ∈ tags, benignVal t = true) :
    decodeYamlAux (fmLines k i tags) [] none =
      [(str "knowledge_type", .s k), (str "insight_type", .s i),
        (str "tags", .list tags)] := by
  rcases benignVal_parts hk with ⟨⟨kc, kt, hkc⟩, hkchars⟩
  rcases benignVal_parts hi with ⟨⟨ic, it, hic⟩, hichars⟩
  rw [fmLines]
  rw [show (str "knowledge_type: " ++ k : Str) =
    (str "knowledge_type") ++ str ": " ++ k from by
      rw [List.append_assoc]
      rfl]
  rw [decodeYamlAux_scalar (str "knowledge_type") _ _ _ 'k'
    (str "nowledge_type") rfl (by decide) (by decide)
    (fun ch hch => benignChar_not_space (hkchars ch hch))]
  rw [show (str "insight_type: " ++ i : Str) =
    (str "insight_type") ++ str ": " ++ i from by
      rw [List.append_assoc]
      rfl]
  rw [decodeYamlAux_scalar (str "insight_type") _ _ _ 'i'
    (str "nsight_type") rfl (by decide) (by decide)
    (fun ch hch => benignChar_not_space (hichars ch hch))]
  rw [decodeYamlAux_tags_open]
  rw [decodeYamlAux_items _
    (fun t ht ch hch =>
      benignChar_not_space ((benignVal_parts (htags t ht)).2 ch hch))]
  simp


theorem getLast?_append_left_ne {l l2 : List Char} (h : ¬ l2 = []) :
    (l ++ l2).getLast? = l2.getLast? := by
  obtain ⟨z, hz⟩ : ∃ z, l2.getLast? = some z :=
    ⟨_, List.getLast?_eq_getLast_of_ne_nil h⟩
  rw [List.getLast?_append, hz]
  rfl

theorem mem_of_getLast?_eq {l : List Char} {x : Char}
    (h : l.getLast? = some x) : x ∈ l := by
  have hm : x ∈ l.getLast? := by rw [h]; rfl
  rcases List.mem_getLast?_eq_getLast hm with ⟨hne, hx⟩
  rw [hx]
  exact List.getLast_mem hne

theorem trimLeftChar_wrap {T : Str}
    (hT : ∀ x, T.head? = some x → goIsSpace x = false)
    (hTne : ¬ T = []) :
    trimLeftChar '\n' ('\n' :: T ++ ['\n']) = T ++ ['\n'] := by
  rcases T with _ | ⟨c, t⟩
  · exact absurd rfl hTne
  · have hc : goIsSpace c = false := hT c rfl
    have hcn : ¬ c = '\n' := by
      intro he
      subst he
      exact absurd hc (by decide)
    rw [show ('\n' :: (c :: t) ++ ['\n'] : Str) =
      '\n' :: c :: (t ++ ['\n']) from rfl]
    simp [trimLeftChar, hcn]

theorem parseFrontMatter_framed (core T : Str)
    (hne : ¬ core = [])
    (hh : ∀ x, core.head? = some x → goIsSpace x = false)
    (hl : ∀ x, core.getLast? = some x → goIsSpace x = false)
    (hdash : dashSafe core = true)
    (hT : ∀ x, T.head? = some x → goIsSpace x = false)
    (hTne : ¬ T = []) :
    parseFrontMatter (str "---" ++
        (('\n' :: core ++ ['\n']) ++ (str "---" ++ ('\n' :: T ++ ['\n'])))) =
      (decodeYaml core, T ++ ['\n']) := by
  have hdashB : dashSafe ('\n' :: core ++ ['\n']) = true :=
    dashSafe_cons (by decide) (dashSafe_append hdash (by decide))
  have hbeq : (core == ([] : Str)) = false := by
    rcases core with _ | ⟨c, t⟩
    · exact absurd rfl hne
    · rfl
  unfold parseFrontMatter
  rw [isPrefixOf_self_append]
  rw [show (!true) = false from rfl]
  rw [if_neg (by simp)]
  unfold splitN3
  rw [splitOnce_fence0]
  rw [show (('\n' :: core ++ ['\n']) ++ (str "---" ++ ('\n' :: T ++ ['\n']))
      : Str) =
    (('\n' :: core ++ ['\n']) ++ str "---") ++ ('\n' :: T ++ ['\n']) from by
      simp [List.append_assoc]]
  dsimp only
  rw [splitOnce_fence _ _ hdashB]
  dsimp only
  rw [trimSpace_wrap hne hh hl]
  rw [hbeq]
  rw [if_neg (by simp)]
  rw [trimLeftChar_wrap hT hTne]

theorem beq_nil_false {v : Str} (h : ¬ v = []) :
    (v == ([] : Str)) = false := by
  rcases v with _ | ⟨c, t⟩
  · exact absurd rfl h
  · rfl

theorem ensureFrontMatter_emit (content k i : Str) (tags : List Str)
    (hbody : (str "---").isPrefixOf (trimLeftSpace content) = false)
    (hk : ¬ k = []) :
    ensureFrontMatter content k i tags =
      buildFrontMatter k i tags ++ '\n' :: trimSpace content ++ ['\n'] := by
  unfold ensureFrontMatter
  rw [hbody, beq_nil_false hk]
  simp

theorem buildFrontMatter_emit (k i : Str) (tags : List Str)
    (hk : ¬ k = []) (hi : ¬ i = []) (ht : ¬ tags = []) :
    buildFrontMatter k i tags =
      str "---" ++ ('\n' :: nlSep (fmLines k i tags) ++ ['\n']) ++
        str "---" := by
  have htagsb : tags.isEmpty = false := by
    rcases tags with _ | ⟨t0, tr⟩
    · exact absurd rfl ht
    · rfl
  rcases tags with _ | ⟨t0, tr⟩
  · exact absurd rfl ht
  have hR : nlSep (fmLines k i (t0 :: tr)) ++ ['\n'] =
      (str "knowledge_type: " ++ k ++ ['\n']) ++
        ((str "insight_type: " ++ i ++ ['\n']) ++
          ((str "tags:" ++ ['\n']) ++
            ((t0 :: tr).map fun t => str "  - " ++ t ++ ['\n']).flatten)) := by
    rw [fmLines, nlSep_cons_cons, nlSep_cons_cons, List.map_cons,
      nlSep_cons_cons]
    rw [show (fun t => str "  - " ++ t ++ ['\n']) =
      (fun l => l ++ ['\n']) ∘ (fun t : Str => str "  - " ++ t) from rfl]
    rw [← List.map_map,
      ← nlSep_flatten (List.map (fun t => str "  - " ++ t) (t0 :: tr))
        (by simp),
      List.map_cons]
    simp [List.append_assoc]
  unfold buildFrontMatter
  rw [beq_nil_false hk, beq_nil_false hi, htagsb]
  rw [show ('\n' :: nlSep (fmLines k i (t0 :: tr)) ++ ['\n'] : Str) =
    '\n' :: (nlSep (fmLines k i (t0 :: tr)) ++ ['\n']) from rfl]
  rw [hR]
  rw [show (str "---\n" : Str) = str "---" ++ ['\n'] from rfl,
    show (str "tags:\n" : Str) = str "tags:" ++ ['\n'] from rfl]
  simp [List.append_assoc]


theorem dashSafe_nlSep {ls : List Str} (h : ∀ l ∈ ls, dashSafe l = true) :
    dashSafe (nlSep ls) = true := by
  induction ls with
  | nil => rfl
  | cons l rest ih =>
    cases rest with
    | nil => exact h l (List.mem_cons_self l [])
    | cons m r =>
      rw [nlSep_cons_cons]
      exact dashSafe_append (h l (List.mem_cons_self l (m :: r)))
        (dashSafe_cons (by decide)
          (ih fun x hx => h x (List.mem_cons_of_mem l hx)))

theorem fmLines_ne (k i : Str) (tags : List Str) :
    ¬ fmLines k i tags = [] := by simp [fmLines]

theorem nlSep_fmLines_ne (k i : Str) (tags : List Str) :
    ¬ nlSep (fmLines k i tags) = [] := by
  rw [fmLines, nlSep_cons_cons]
  simp

theorem nlSep_fmLines_head (k i : Str) (tags : List Str) :
    (nlSep (fmLines k i tags)).head? = some 'k' := rfl

theorem nlSep_fmLines_getLast (k i : Str) (ts : List Str) (tb : Str)
    (htb : ¬ tb = []) :
    (nlSep (fmLines k i (ts ++ [tb]))).getLast? = tb.getLast? := by
  have h1 : fmLines k i (ts ++ [tb]) =
      ((str "knowledge_type: " ++ k) :: (str "insight_type: " ++ i) ::
        str "tags:" :: ts.map (fun t => str "  - " ++ t)) ++
        [str "  - " ++ tb] := by
    simp [fmLines]
  rw [h1, nlSep_concat _ _ (by simp)]
  rw [getLast?_append_left_ne (by simp)]
  rw [show ('\n' :: (str "  - " ++ tb) : Str) =
    (str "\n  - ") ++ tb from rfl]
  exact getLast?_append_left_ne htb

theorem fmLines_dashSafe (k i : Str) (tags : List Str)
    (hk : ∀ ch ∈ k, benignChar ch = true)
    (hi : ∀ ch ∈ i, benignChar ch = true)
    (htags : ∀ t ∈ tags, ∀ ch ∈ t, benignChar ch = true) :
    ∀ l ∈ fmLines k i tags, dashSafe l = true := by
  intro l hl
  simp only [fmLines, List.mem_cons, List.mem_map] at hl
  rcases hl with rfl | rfl | rfl | ⟨t, ht, rfl⟩
  · exact dashSafe_append (by decide) (dashSafe_of_chars hk)
  · exact dashSafe_append (by decide) (dashSafe_of_chars hi)
  · decide
  · exact dashSafe_append (by decide) (dashSafe_of_chars (htags t ht))

theorem fmLines_no_newline (k i : Str) (tags : List Str)
    (hk : ∀ ch ∈ k, benignChar ch = true)
    (hi : ∀ ch ∈ i, benignChar ch = true)
    (htags : ∀ t ∈ tags, ∀ ch ∈ t, benignChar ch = true) :
    ∀ l ∈ fmLines k i tags, ∀ ch ∈ l, ¬ ch = '\n' := by
  intro l hl ch hch
  simp only [fmLines, List.mem_cons, List.mem_map] at hl
  rcases hl with rfl | rfl | rfl | ⟨t, ht, rfl⟩
  · rcases List.mem_append.mp hch with h | h
    · exact (by decide : ∀ c ∈ str "knowledge_type: ", ¬ c = '\n') ch h
    · exact (benignChar_ne (hk ch h)).2.2.1
  · rcases List.mem_append.mp hch with h | h
    · exact (by decide : ∀ c ∈ str "insight_type: ", ¬ c = '\n') ch h
    · exact (benignChar_ne (hi ch h)).2.2.1
  · exact (by decide : ∀ c ∈ str "tags:", ¬ c = '\n') ch hch
  · rcases List.mem_append.mp hch with h | h
    · exact (by decide : ∀ c ∈ str "  - ", ¬ c = '\n') ch h
    · exact (benignChar_ne (htags t ht ch h)).2.2.1

/-- Amended C6: for benign metadata values (non-empty words of ASCII
letters, digits and underscores) with all three of knowledge_type,
insight_type and a non-empty tags list present, and body content that
does not begin with a front-matter fence and has non-empty trimmed text,
parsing the emitted document returns exactly the three metadata entries
and a body equal to the trimmed content plus one trailing newline — not
byte-identical to the trimmed body as the original claim stated. -/
theorem C6_front_matter_roundtrip (knowledgeType insightType : Str)
    (tags : List Str) (content : Str)
    (hk : benignVal knowledgeType = true)
    (hi : benignVal insightType = true)
    (htne : ¬ tags = [])
    (htb : ∀ t ∈ tags, benignVal t = true)
    (hbody : (str "---").isPrefixOf (trimLeftSpace content) = false)
    (hnonempty : ¬ trimSpace content = []) :
    parseFrontMatter
        (ensureFrontMatter content knowledgeType insightType tags) =
      ([(str "knowledge_type", .s knowledgeType),
        (str "insight_type", .s insightType),
        (str "tags", .list tags)],
       trimSpace content ++ ['\n']) := by
  rcases benignVal_parts hk with ⟨⟨kc, kt, hkc⟩, hkchars⟩
  rcases benignVal_parts hi with ⟨⟨ic, it, hic⟩, hichars⟩
  have hkne : ¬ knowledgeType = [] := by rw [hkc]; simp
  have hine : ¬ insightType = [] := by rw [hic]; simp
  have htchars : ∀ t ∈ tags, ∀ ch ∈ t, benignChar ch = true :=
    fun t ht => (benignVal_parts (htb t ht)).2
  have hdash : dashSafe (nlSep (fmLines knowledgeType insightType tags)) =
      true :=
    dashSafe_nlSep (fmLines_dashSafe _ _ _ hkchars hichars htchars)
  have hh : ∀ x,
      (nlSep (fmLines knowledgeType insightType tags)).head? = some x →
      goIsSpace x = false := by
    intro x hx
    rw [nlSep_fmLines_head] at hx
    cases hx
    decide
  have hl : ∀ x,
      (nlSep (fmLines knowledgeType insightType tags)).getLast? = some x →
      goIsSpace x = false := by
    rcases List.eq_nil_or_concat tags with h | ⟨ts, tb, htags_eq⟩
    · exact absurd h htne
    · rw [List.concat_eq_append] at htags_eq
      subst htags_eq
      have htbne : ¬ tb = [] := by
        rcases benignVal_parts (htb tb (by simp)) with ⟨⟨c1, t1, hc1⟩, _⟩
        rw [hc1]
        simp
      intro x hx
      rw [nlSep_fmLines_getLast _ _ _ _ htbne] at hx
      exact benignChar_not_space
        ((benignVal_parts (htb tb (by simp))).2 x (mem_of_getLast?_eq hx))
  have hT : ∀ x, (trimSpace content).head? = some x →
      goIsSpace x = false := by
    intro x hx
    rcases hts : trimSpace content with _ | ⟨c, t⟩
    · rw [hts] at hx
      cases hx
    · rw [hts] at hx
      have hhd := trimSpace_head hts
      cases hx
      exact hhd
  rw [ensureFrontMatter_emit _ _ _ _ hbody hkne]
  rw [buildFrontMatter_emit _ _ _ hkne hine htne]
  rw [show (str "---" ++
      ('\n' :: nlSep (fmLines knowledgeType insightType tags) ++ ['\n']) ++
      str "---") ++ '\n' :: trimSpace content ++ ['\n'] =
    str "---" ++
      (('\n' :: nlSep (fmLines knowledgeType insightType tags) ++ ['\n']) ++
        (str "---" ++ ('\n' :: trimSpace content ++ ['\n']))) from by
      simp [List.append_assoc]]
  rw [parseFrontMatter_framed _ _
    (nlSep_fmLines_ne knowledgeType insightType tags) hh hl hdash hT
    hnonempty]
  rw [show decodeYaml (nlSep (fmLines knowledgeType insightType tags)) =
    decodeYamlAux
      (splitChar '\n' (nlSep (fmLines knowledgeType insightType tags)))
      [] none from rfl]
  rw [splitChar_nlSep
    (fmLines_no_newline _ _ _ hkchars hichars htchars)
    (fmLines_ne knowledgeType insightType tags)]
  rw [decodeYaml_lines _ _ _ hk hi htb]


/-- Witness for the amended C6 at concrete benign values. -/
theorem C6_front_matter_roundtrip_witness :
    parseFrontMatter
        (ensureFrontMatter (str "hi") (str "doc") (str "lesson")
          [str "a"]) =
      ([(str "knowledge_type", .s (str "doc")),
        (str "insight_type", .s (str "lesson")),
        (str "tags", .list [str "a"])],
       trimSpace (str "hi") ++ ['\n']) :=
  C6_front_matter_roundtrip (str "doc") (str "lesson") [str "a"]
    (str "hi") (by decide) (by decide) (by decide) (by decide) (by decide)
    (by decide)
end AgentMem